import Mathlib

/-!
Verification of the sharded-counter component
(`src/component/public.ts`, plus the alternate variant of the same module
kept elsewhere in the repository).

JavaScript numbers are modelled as rationals (`ℚ`), so the arithmetic facts
below are exact; floating-point rounding is outside the model.  The Convex
database is a list of documents with platform-assigned unique ids, and every
call to `Math.random()` is modelled by an explicitly passed rational in
`[0, 1)`.  Queries built with `.unique()` throw when more than one document
matches, so the operations using them return `Option`.
-/

namespace ShardedCounter

/-- A document of the `counters` table (see `src/component/schema.ts`):
`name` is the counter key, `shard` and `value` are JS numbers.  `id` is the
Convex document id (`_id`), assigned uniquely by the platform on insert. -/
structure Rec where
  id : Nat
  name : String
  shard : ℚ
  value : ℚ
deriving DecidableEq, Repr

/-- The database state: the `counters` table together with the next fresh
document id. -/
structure DB where
  recs : List Rec
  nextId : Nat
deriving DecidableEq, Repr

/-- `ctx.db.insert("counters", { name, value, shard })`: append a document
with a fresh id. -/
def DB.insertRec (db : DB) (name : String) (shard value : ℚ) : DB :=
  ⟨db.recs ++ [⟨db.nextId, name, shard, value⟩], db.nextId + 1⟩

/-- Effect of `ctx.db.patch(i, { value })` on a single document. -/
def patchFun (i : Nat) (value : ℚ) (r : Rec) : Rec :=
  if r.id = i then { r with value := value } else r

/-- `ctx.db.patch(id, { value })`: overwrite the `value` field of the
document with the given id. -/
def DB.patch (db : DB) (i : Nat) (value : ℚ) : DB :=
  ⟨db.recs.map (patchFun i value), db.nextId⟩

/-- `ctx.db.delete(id)`. -/
def DB.delete (db : DB) (i : Nat) : DB :=
  ⟨db.recs.filter (fun r => decide (r.id ≠ i)), db.nextId⟩

/-- `ctx.db.query("counters").withIndex("name", q => q.eq("name", n)).collect()`. -/
def DB.collectName (db : DB) (n : String) : List Rec :=
  db.recs.filter (fun r => decide (r.name = n))

/-- `ctx.db.query("counters").withIndex("name", q => q.eq("name", n).eq("shard", s)).unique()`:
the outer `none` models the exception thrown when more than one document
matches; `some none` is a missing document. -/
def DB.uniqueNS (db : DB) (n : String) (s : ℚ) : Option (Option Rec) :=
  match db.recs.filter (fun r => decide (r.name = n ∧ r.shard = s)) with
  | [] => some none
  | [c] => some (some c)
  | _ => none

def DEFAULT_SHARD_COUNT : ℚ := 16

/-- The `add` mutation.  `u` is the value produced by `Math.random()`; the
chosen shard is the pinned `shard?` if supplied, otherwise
`Math.floor(u * (shards ?? 16))`.  Returns the new state and the shard index
used, or `none` when the `.unique()` read throws. -/
def add (db : DB) (name : String) (cnt : ℚ) (shard? shards? : Option ℚ) (u : ℚ) :
    Option (DB × ℚ) :=
  let shard : ℚ := shard?.getD ((⌊u * shards?.getD DEFAULT_SHARD_COUNT⌋ : ℤ) : ℚ)
  (db.uniqueNS name shard).map (fun found =>
    match found with
    | some counter => (db.patch counter.id (counter.value + cnt), shard)
    | none => (db.insertRec name shard cnt, shard))

/-- The `count` query: `counters.reduce((sum, counter) => sum + counter.value, 0)`
over all documents with the given name. -/
def count (db : DB) (n : String) : ℚ :=
  (db.collectName n).foldl (fun sum c => sum + c.value) 0

/-- Number of iterations of `for (let i = 0; i < q; i++)` for a JS number
bound `q`. -/
def iterCount (q : ℚ) : Nat := (⌈q⌉).toNat

/-- The shard-rewriting loop shared by both rebalance variants: for each
integer `i` below the iteration bound `m`, patch the first collected counter
whose `shard` equals `i` to the value `vf i`, or insert a fresh document at
shard `i` with that value.  `counters` is the snapshot collected before the
loop, exactly as in the source. -/
def rebLoop (counters : List Rec) (n : String) (vf : Nat → ℚ) (db : DB) (m : Nat) : DB :=
  (List.range m).foldl (fun acc (i : Nat) =>
    match counters.find? (fun c => decide (c.shard = (i : ℚ))) with
    | some c => acc.patch c.id (vf i)
    | none => acc.insertRec n (i : ℚ) (vf i)) db

/-- Delete each of the given (previously collected) documents by id. -/
def deleteAll (db : DB) (toDel : List Rec) : DB :=
  toDel.foldl (fun acc c => acc.delete c.id) db

/-- The `rebalance` mutation of the main component (`src/component/public.ts`):
every shard in `[0, shardCount)` is set to the even share `total / shardCount`,
and every collected document with `shard >= shardCount` is deleted. -/
def rebalance (db : DB) (name : String) (shards? : Option ℚ) : DB :=
  let counters := db.collectName name
  let total := counters.foldl (fun sum c => sum + c.value) 0
  let shardCount := shards?.getD DEFAULT_SHARD_COUNT
  let value := total / shardCount
  let db1 := rebLoop counters name (fun _ => value) db (iterCount shardCount)
  deleteAll db1 (counters.filter (fun c => decide (shardCount ≤ c.shard)))

/-- The `reset` mutation: delete every document with the given name. -/
def reset (db : DB) (name : String) : DB :=
  deleteAll db (db.collectName name)

/-- The destructuring swap `[arr[i], arr[j]] = [arr[j], arr[i]]` on a JS
array of numbers: both right-hand values are read before either write. -/
def jsSwap (l : List Nat) (i j : Nat) : List Nat :=
  (l.set i (l.getD j 0)).set j (l.getD i 0)

/-- The Fisher-Yates loop of `shuffle`: the loop variable counts down from
`length - 1` to `1`, and `k` indexes the stream of `Math.random()` results,
so iteration with loop variable `i + 1` swaps positions `i + 1` and
`Math.floor(rands k * (i + 2))`. -/
def shuffleLoop (rands : Nat → ℚ) : Nat → Nat → List Nat → List Nat
  | _, 0, l => l
  | k, i + 1, l =>
    shuffleLoop rands (k + 1) i (jsSwap l (i + 1) (⌊rands k * ((i : ℚ) + 2)⌋).toNat)

/-- The `shuffle` helper of `src/component/public.ts`. -/
def shuffle (l : List Nat) (rands : Nat → ℚ) : List Nat :=
  shuffleLoop rands 0 (l.length - 1) l

/-- The sampled shard indices of `estimateCount`:
`shuffle(Array.from({length: shardCount}, (_, i) => i)).slice(0, readFromShards)`.
`Array.from` truncates a fractional length and clamps a negative one to `0`,
which is `Int.toNat ∘ Int.floor`; `readFromShards` is negative only when
`shardCount < 1`, in which case the array is already empty, so flooring the
slice bound coincides with the negative-index semantics of `slice`. -/
def sampleIdxs (shardCount readFromShards : ℚ) (rands : Nat → ℚ) : List Nat :=
  (shuffle (List.range (⌊shardCount⌋).toNat) rands).take (⌊readFromShards⌋).toNat

/-- The sequential `.unique()` read loop of `estimateCount`, carrying the
running `readCount`; a missing shard contributes 0, and a non-unique match
throws (`none`). -/
def readShardsFrom (db : DB) (n : String) (acc : ℚ) : List Nat → Option ℚ
  | [] => some acc
  | i :: tl =>
    match db.uniqueNS n (i : ℚ) with
    | none => none
    | some found =>
      readShardsFrom db n
        (match found with
         | some c => acc + c.value
         | none => acc) tl

/-- The read loop of `estimateCount` started with `readCount = 0`. -/
def readShards (db : DB) (n : String) (idxs : List Nat) : Option ℚ :=
  readShardsFrom db n 0 idxs

/-- The `estimateCount` query: clamp `readFromShards` to
`min(max(1, readFromShards), shardCount)`, sample that many distinct shards
of the shuffled index array, and extrapolate by `shardCount / readFromShards`. -/
def estimateCount (db : DB) (n : String) (readFromShards? shards? : Option ℚ)
    (rands : Nat → ℚ) : Option ℚ :=
  let shardCount := shards?.getD DEFAULT_SHARD_COUNT
  let readFromShards := min (max 1 (readFromShards?.getD 1)) shardCount
  (readShards db n (sampleIdxs shardCount readFromShards rands)).map
    (fun readCount => readCount * shardCount / readFromShards)

/-- The `while (Math.abs(remainder) > 0)` loop of the variant `rebalance`
(the alternate copy of the module in the repository): push `Math.sign` of the
remainder while at least 1 remains, then the final fractional leftover. -/
def extraCounts (r : ℚ) : List ℚ :=
  if h : |r| > 0 then
    (if 1 ≤ |r| then (if 0 < r then (1 : ℚ) else -1) else r) ::
      extraCounts (r - (if 1 ≤ |r| then (if 0 < r then (1 : ℚ) else -1) else r))
  else []
termination_by (⌈|r|⌉).toNat
decreasing_by
  have hpos : (0 : ℤ) < ⌈|r|⌉ := Int.ceil_pos.mpr h
  by_cases h1 : 1 ≤ |r|
  · by_cases h2 : 0 < r
    · rw [dif_pos h1, dif_pos h2]
      have hr1 : (1 : ℚ) ≤ r := by rwa [abs_of_pos h2] at h1
      have habs : |r - 1| = |r| - 1 := by
        rw [abs_of_nonneg (by linarith), abs_of_pos h2]
      have hc : ⌈|r| - 1⌉ = ⌈|r|⌉ - 1 := by
        simpa using Int.ceil_sub_int |r| 1
      rw [habs, hc]
      omega
    · rw [dif_pos h1, dif_neg h2]
      have hneg : r < 0 := by
        rcases lt_trichotomy r 0 with h' | h' | h'
        · exact h'
        · exact absurd (h' ▸ h) (by simp)
        · exact absurd h' h2
      have hr1 : r ≤ -1 := by
        rw [abs_of_neg hneg] at h1; linarith
      have habs : |r - -1| = |r| - 1 := by
        rw [abs_of_nonpos (by linarith), abs_of_neg hneg]; ring
      have hc : ⌈|r| - 1⌉ = ⌈|r|⌉ - 1 := by
        simpa using Int.ceil_sub_int |r| 1
      rw [habs, hc]
      omega
  · rw [dif_neg h1, sub_self, abs_zero, Int.ceil_zero]
    omega

/-- The `rebalance` mutation of the alternate variant of the module:
`base = Math.floor(total / shardCount)`, remainder distributed through
`extraCounts`, shard `i` receiving `base + (i < extras.length ? extras[i] : 0)`. -/
def rebalance0 (db : DB) (name : String) (shards? : Option ℚ) : DB :=
  let counters := db.collectName name
  let total := counters.foldl (fun sum c => sum + c.value) 0
  let shardCount := shards?.getD DEFAULT_SHARD_COUNT
  let baseCount : ℚ := ((⌊total / shardCount⌋ : ℤ) : ℚ)
  let remainder := total - baseCount * shardCount
  let extras := extraCounts remainder
  let db1 := rebLoop counters name (fun i => baseCount + extras.getD i 0) db
    (iterCount shardCount)
  deleteAll db1 (counters.filter (fun c => decide (shardCount ≤ c.shard)))

/-- The `(name, shard)` pairs of all documents; the schema invariant is that
these are pairwise distinct. -/
def pairs (db : DB) : List (String × ℚ) := db.recs.map (fun r => (r.name, r.shard))

/-- At most one document per `(name, shard)` pair. -/
def UniqueInv (db : DB) : Prop := (pairs db).Nodup

/-- Well-formedness guaranteed by the Convex platform: document ids are
pairwise distinct and below the next fresh id.  States violating this are
unrepresentable in the real store. -/
def WfIds (db : DB) : Prop :=
  (db.recs.map (·.id)).Nodup ∧ ∀ r ∈ db.recs, r.id < db.nextId

/-- Total value stored at a given `(name, shard)` slot. -/
def shardValue (db : DB) (n : String) (s : ℚ) : ℚ :=
  ((db.recs.filter (fun r => decide (r.name = n ∧ r.shard = s))).map (·.value)).sum

/-- One call of the `add` mutation, as an element of a write sequence. -/
structure AddCall where
  cnt : ℚ
  shard? : Option ℚ
  shards? : Option ℚ
  u : ℚ

/-- Run a sequence of `add` mutations for one counter name. -/
def runAdds (db : DB) (n : String) : List AddCall → Option DB
  | [] => some db
  | c :: tl =>
    match add db n c.cnt c.shard? c.shards? c.u with
    | some (db', _) => runAdds db' n tl
    | none => none

/-- `some k` when the rational is (the embedding of) the natural number `k`. -/
def natIdx (q : ℚ) : Option Nat :=
  if q = (((⌊q⌋).toNat : ℕ) : ℚ) then some (⌊q⌋).toNat else none

/-- The record as rewritten by the first `m` iterations of the rebalance
loop: a record of the rebalanced counter sitting at a natural shard index
below `m` has its value overwritten by `vf`. -/
def patchedRec (n : String) (vf : Nat → ℚ) (m : Nat) (r : Rec) : Rec :=
  match natIdx r.shard with
  | some k => if r.name = n ∧ k < m then { r with value := vf k } else r
  | none => r

/-- Loop indices for which no collected counter exists, i.e. the iterations
of the rebalance loop that insert a fresh document. -/
def insIdxs (counters : List Rec) (m : Nat) : List Nat :=
  (List.range m).filter
    (fun i => (counters.find? (fun c => decide (c.shard = (i : ℚ)))).isNone)

/-- The documents inserted by the rebalance loop, with their platform ids. -/
def insertedRecs (counters : List Rec) (n : String) (vf : Nat → ℚ) (start m : Nat) :
    List Rec :=
  ((insIdxs counters m).enum).map (fun p => ⟨start + p.1, n, (p.2 : ℚ), vf p.2⟩)

/-- The per-name uniqueness invariant: the shard indices of one counter's
records are pairwise distinct. -/
def NodupShards (db : DB) (n : String) : Prop :=
  ((db.collectName n).map (·.shard)).Nodup

/-- The steady-state data-model invariant for one counter: unique `(name,
shard)` pairs, well-formed ids, and every record of the counter at a natural
shard index. -/
def IntactFor (db : DB) (n : String) : Prop :=
  UniqueInv db ∧ WfIds db ∧ ∀ r ∈ db.recs, r.name = n → ∃ k : Nat, r.shard = (k : ℚ)

end ShardedCounter

namespace ShardedCounter

theorem foldl_add_value (l : List Rec) (a : ℚ) :
    l.foldl (fun sum c => sum + c.value) a = a + (l.map (·.value)).sum := by
  induction l generalizing a with
  | nil => simp
  | cons r tl ih => simp [List.foldl_cons, ih, add_assoc]

theorem count_eq (db : DB) (n : String) :
    count db n = ((db.collectName n).map (·.value)).sum := by
  simp [count, foldl_add_value]

theorem uniqueNS_inv {db : DB} {n : String} {s : ℚ} {o : Option Rec}
    (h : db.uniqueNS n s = some o) :
    (o = none ∧ db.recs.filter (fun r => decide (r.name = n ∧ r.shard = s)) = []) ∨
    (∃ c, o = some c ∧
      db.recs.filter (fun r => decide (r.name = n ∧ r.shard = s)) = [c]) := by
  unfold DB.uniqueNS at h
  rcases hl : db.recs.filter (fun r => decide (r.name = n ∧ r.shard = s)) with
    _ | ⟨c, _ | ⟨c', tl⟩⟩ <;> rw [hl] at h
  · exact Or.inl ⟨(Option.some_injective _ h).symm, hl⟩
  · exact Or.inr ⟨c, (Option.some_injective _ h).symm, hl⟩
  · exact absurd h (by simp)

theorem uniqueNS_of_nil {db : DB} {n : String} {s : ℚ}
    (hl : db.recs.filter (fun r => decide (r.name = n ∧ r.shard = s)) = []) :
    db.uniqueNS n s = some none := by
  unfold DB.uniqueNS
  rw [hl]

theorem uniqueNS_of_single {db : DB} {n : String} {s : ℚ} {c : Rec}
    (hl : db.recs.filter (fun r => decide (r.name = n ∧ r.shard = s)) = [c]) :
    db.uniqueNS n s = some (some c) := by
  unfold DB.uniqueNS
  rw [hl]

theorem patchFun_name (i : Nat) (w : ℚ) (r : Rec) : (patchFun i w r).name = r.name := by
  unfold patchFun; split <;> rfl

theorem patchFun_shard (i : Nat) (w : ℚ) (r : Rec) : (patchFun i w r).shard = r.shard := by
  unfold patchFun; split <;> rfl

theorem patchFun_id (i : Nat) (w : ℚ) (r : Rec) : (patchFun i w r).id = r.id := by
  unfold patchFun; split <;> rfl

theorem filter_map_patchFun (l : List Rec) (i : Nat) (w : ℚ) (p : Rec → Bool)
    (hp : ∀ r, p (patchFun i w r) = p r) :
    (l.map (patchFun i w)).filter p = (l.filter p).map (patchFun i w) := by
  rw [List.filter_map]
  exact congrArg _ (List.filter_congr (fun a _ => hp a))

theorem pairs_patch (db : DB) (i : Nat) (v : ℚ) : pairs (db.patch i v) = pairs db := by
  simp only [pairs, DB.patch, List.map_map]
  apply List.map_congr_left
  intro r _
  simp [Function.comp, patchFun_name, patchFun_shard]

theorem pairs_insertRec (db : DB) (n : String) (s v : ℚ) :
    pairs (db.insertRec n s v) = pairs db ++ [(n, s)] := by
  simp [pairs, DB.insertRec]

theorem add_pinned_insert {db : DB} {n : String} {s : ℚ}
    (h : db.uniqueNS n s = some none) (cnt : ℚ) (shards? : Option ℚ) (u : ℚ) :
    add db n cnt (some s) shards? u = some (db.insertRec n s cnt, s) := by
  simp [add, h]

theorem add_pinned_patch {db : DB} {n : String} {s : ℚ} {c : Rec}
    (h : db.uniqueNS n s = some (some c)) (cnt : ℚ) (shards? : Option ℚ) (u : ℚ) :
    add db n cnt (some s) shards? u = some (db.patch c.id (c.value + cnt), s) := by
  simp [add, h]

theorem add_pinned_none {db : DB} {n : String} {s : ℚ}
    (h : db.uniqueNS n s = none) (cnt : ℚ) (shards? : Option ℚ) (u : ℚ) :
    add db n cnt (some s) shards? u = none := by
  simp [add, h]

theorem add_unpinned (db : DB) (n : String) (cnt : ℚ) (shards? : Option ℚ) (u : ℚ) :
    add db n cnt none shards? u =
      add db n cnt (some (((⌊u * shards?.getD DEFAULT_SHARD_COUNT⌋ : ℤ) : ℚ)))
        shards? u := rfl

theorem shardValue_patch_single {db : DB} {n : String} {s : ℚ} {c : Rec}
    (hone : db.recs.filter (fun r => decide (r.name = n ∧ r.shard = s)) = [c])
    (w : ℚ) :
    shardValue (db.patch c.id w) n s = w := by
  unfold shardValue DB.patch
  rw [filter_map_patchFun _ _ _ _
    (fun r => by simp [patchFun_name, patchFun_shard]), hone]
  simp [patchFun]

theorem shardValue_insertRec_nil {db : DB} {n : String} {s : ℚ}
    (hnil : db.recs.filter (fun r => decide (r.name = n ∧ r.shard = s)) = [])
    (w : ℚ) :
    shardValue (db.insertRec n s w) n s = w := by
  unfold shardValue DB.insertRec
  rw [List.filter_append, hnil]
  simp

/-- C6: with a pinned shard the write is deterministic — any two random draws
produce identical state and return value — the returned index is the pinned
one, and the pinned slot's total grows by the delta. -/
theorem c6_shard_pinning (db : DB) (n : String) (d i : ℚ) (shards? : Option ℚ)
    (u₁ u₂ : ℚ) :
    add db n d (some i) shards? u₁ = add db n d (some i) shards? u₂ ∧
    ∀ db' j, add db n d (some i) shards? u₁ = some (db', j) →
      j = i ∧ shardValue db' n i = shardValue db n i + d := by
  refine ⟨rfl, fun db' j h => ?_⟩
  rcases ho : db.uniqueNS n i with _ | o
  · rw [add_pinned_none ho] at h
    exact absurd h (by simp)
  · rcases uniqueNS_inv ho with ⟨rfl, hnil⟩ | ⟨c, rfl, hone⟩
    · rw [add_pinned_insert ho] at h
      obtain ⟨rfl, rfl⟩ : db' = db.insertRec n i d ∧ j = i := by
        have := Option.some_injective _ h.symm
        exact ⟨congrArg Prod.fst this, congrArg Prod.snd this⟩
      refine ⟨rfl, ?_⟩
      rw [shardValue_insertRec_nil hnil]
      unfold shardValue
      rw [hnil]
      simp
    · rw [add_pinned_patch ho] at h
      obtain ⟨rfl, rfl⟩ : db' = db.patch c.id (c.value + d) ∧ j = i := by
        have := Option.some_injective _ h.symm
        exact ⟨congrArg Prod.fst this, congrArg Prod.snd this⟩
      refine ⟨rfl, ?_⟩
      rw [shardValue_patch_single hone]
      unfold shardValue
      rw [hone]
      simp

end ShardedCounter

namespace ShardedCounter

theorem filterNS_eq (db : DB) (n : String) (s : ℚ) :
    db.recs.filter (fun r => decide (r.name = n ∧ r.shard = s)) =
      (db.collectName n).filter (fun r => decide (r.shard = s)) := by
  unfold DB.collectName
  rw [List.filter_filter]
  apply List.filter_congr
  intro a _
  by_cases h1 : a.name = n <;> by_cases h2 : a.shard = s <;> simp [h1, h2]

theorem filter_shard_len_le_one {l : List Rec} (h : (l.map (·.shard)).Nodup) (s : ℚ) :
    (l.filter (fun r => decide (r.shard = s))).length ≤ 1 := by
  induction l with
  | nil => simp
  | cons a tl ih =>
    rw [List.map_cons, List.nodup_cons] at h
    by_cases hs : a.shard = s
    · have hnil : tl.filter (fun r => decide (r.shard = s)) = [] := by
        rw [List.filter_eq_nil_iff]
        intro b hb hbs
        rw [decide_eq_true_eq] at hbs
        exact h.1 (hs ▸ hbs ▸ List.mem_map_of_mem (·.shard) hb)
      simp [List.filter_cons, hs, hnil]
    · simpa [List.filter_cons, hs] using ih h.2

theorem filterNS_short {db : DB} {n : String} (h : NodupShards db n) (s : ℚ) :
    db.recs.filter (fun r => decide (r.name = n ∧ r.shard = s)) = [] ∨
    ∃ c, db.recs.filter (fun r => decide (r.name = n ∧ r.shard = s)) = [c] := by
  rw [filterNS_eq]
  rcases hl : (db.collectName n).filter (fun r => decide (r.shard = s)) with _ | ⟨c, tl⟩
  · exact Or.inl hl
  · have hlen := filter_shard_len_le_one h s
    rw [hl] at hlen
    simp only [List.length_cons] at hlen
    have htl : tl = [] := List.eq_nil_of_length_eq_zero (by omega)
    exact Or.inr ⟨c, by rw [hl, htl]⟩

theorem mem_filterNS {db : DB} {n : String} {s : ℚ} {c : Rec}
    (h : c ∈ db.recs.filter (fun r => decide (r.name = n ∧ r.shard = s))) :
    c ∈ db.recs ∧ c.name = n ∧ c.shard = s := by
  have := List.mem_filter.mp h
  simpa using this

theorem collectName_insertRec_self (db : DB) (n : String) (s w : ℚ) :
    (db.insertRec n s w).collectName n =
      db.collectName n ++ [⟨db.nextId, n, s, w⟩] := by
  unfold DB.insertRec DB.collectName
  rw [List.filter_append]
  simp

theorem count_insertRec_self (db : DB) (n : String) (s w : ℚ) :
    count (db.insertRec n s w) n = count db n + w := by
  rw [count_eq, count_eq, collectName_insertRec_self]
  simp

theorem collectName_patch (db : DB) (i : Nat) (w : ℚ) (n : String) :
    (db.patch i w).collectName n = (db.collectName n).map (patchFun i w) := by
  unfold DB.patch DB.collectName
  exact filter_map_patchFun _ _ _ _ (fun r => by simp [patchFun_name])

theorem sum_map_patchFun_of_mem {l : List Rec} (hnd : (l.map (·.id)).Nodup)
    {c : Rec} (hc : c ∈ l) (w : ℚ) :
    ((l.map (patchFun c.id w)).map (·.value)).sum =
      (l.map (·.value)).sum - c.value + w := by
  induction l with
  | nil => cases hc
  | cons a tl ih =>
    rw [List.map_cons, List.nodup_cons] at hnd
    rcases List.mem_cons.mp hc with rfl | hc'
    · have htl : tl.map (patchFun c.id w) = tl := by
        have : ∀ b ∈ tl, patchFun c.id w b = id b := by
          intro b hb
          have hid : b.id ≠ c.id := by
            intro hbid
            exact hnd.1 (hbid ▸ List.mem_map_of_mem (·.id) hb)
          simp [patchFun, hid]
        rw [List.map_congr_left this, List.map_id]
      rw [List.map_cons, htl]
      simp [patchFun]
      ring
    · have hid : a.id ≠ c.id := by
        intro haid
        exact hnd.1 (haid ▸ List.mem_map_of_mem (·.id) hc')
      rw [List.map_cons, List.map_cons, List.map_cons]
      rw [List.sum_cons, List.sum_cons, ih hnd.2 hc']
      simp [patchFun, hid]
      ring

theorem ids_sub_collectName (db : DB) (n : String) (h : (db.recs.map (·.id)).Nodup) :
    ((db.collectName n).map (·.id)).Nodup :=
  ((List.filter_sublist db.recs).map (·.id)).nodup h

theorem count_patch_mem {db : DB} {n : String} {c : Rec}
    (hw : WfIds db) (hc : c ∈ db.recs) (hcn : c.name = n) (w : ℚ) :
    count (db.patch c.id w) n = count db n - c.value + w := by
  rw [count_eq, count_eq, collectName_patch]
  exact sum_map_patchFun_of_mem (ids_sub_collectName db n hw.1)
    (by unfold DB.collectName; rw [List.mem_filter]; simp [hc, hcn]) w

theorem wfIds_patch {db : DB} (hw : WfIds db) (i : Nat) (w : ℚ) :
    WfIds (db.patch i w) := by
  constructor
  · have : (db.patch i w).recs.map (·.id) = db.recs.map (·.id) := by
      unfold DB.patch
      rw [List.map_map]
      exact List.map_congr_left (fun a _ => patchFun_id i w a)
    rw [this]; exact hw.1
  · intro r hr
    unfold DB.patch at hr
    obtain ⟨r₀, hr₀, rfl⟩ := List.mem_map.mp hr
    rw [patchFun_id]
    exact hw.2 r₀ hr₀

theorem wfIds_insertRec {db : DB} (hw : WfIds db) (n : String) (s w : ℚ) :
    WfIds (db.insertRec n s w) := by
  constructor
  · unfold DB.insertRec
    simp only [List.map_append, List.map_cons, List.map_nil]
    rw [List.nodup_append]
    refine ⟨hw.1, List.nodup_singleton _, ?_⟩
    intro a ha hb
    simp only [List.mem_singleton] at hb
    obtain ⟨r, hr, rfl⟩ := List.mem_map.mp ha
    exact absurd (hb ▸ hw.2 r hr) (by simp)
  · intro r hr
    unfold DB.insertRec at hr
    rcases List.mem_append.mp hr with h | h
    · exact Nat.lt_succ_of_lt (hw.2 r h)
    · simp only [List.mem_singleton] at h
      rw [h]
      exact Nat.lt_succ_self _

theorem nodupShards_patch {db : DB} {n : String} (h : NodupShards db n)
    (i : Nat) (w : ℚ) : NodupShards (db.patch i w) n := by
  unfold NodupShards
  rw [collectName_patch, List.map_map]
  rw [show ((fun r => r.shard) ∘ patchFun i w) = (fun (r : Rec) => r.shard) from
    funext (fun r => patchFun_shard i w r)]
  exact h

theorem nodupShards_insertRec {db : DB} {n : String} {s : ℚ} (h : NodupShards db n)
    (hnil : db.recs.filter (fun r => decide (r.name = n ∧ r.shard = s)) = [])
    (w : ℚ) : NodupShards (db.insertRec n s w) n := by
  unfold NodupShards
  rw [collectName_insertRec_self]
  simp only [List.map_append, List.map_cons, List.map_nil]
  rw [List.nodup_append]
  refine ⟨h, List.nodup_singleton _, ?_⟩
  intro a ha hb
  simp only [List.mem_singleton] at hb
  subst hb
  obtain ⟨r, hr, hrs⟩ := List.mem_map.mp ha
  rw [filterNS_eq, List.filter_eq_nil_iff] at hnil
  exact hnil r hr (by simp [hrs])

theorem add_step {db : DB} {n : String} (hw : WfIds db) (hns : NodupShards db n)
    (d : ℚ) (shard? shards? : Option ℚ) (u : ℚ) :
    ∃ db' j, add db n d shard? shards? u = some (db', j) ∧
      WfIds db' ∧ NodupShards db' n ∧ count db' n = count db n + d := by
  rcases shard? with _ | s
  all_goals {
    first
    | (rw [add_unpinned]
       generalize ((⌊u * shards?.getD DEFAULT_SHARD_COUNT⌋ : ℤ) : ℚ) = s)
    | skip
    rcases filterNS_short hns s with hnil | ⟨c, hone⟩
    · refine ⟨db.insertRec n s d, s, add_pinned_insert (uniqueNS_of_nil hnil) d shards? u, ?_, ?_, ?_⟩
      · exact wfIds_insertRec hw n s d
      · exact nodupShards_insertRec hns hnil d
      · exact count_insertRec_self db n s d
    · obtain ⟨hc, hcn, hcs⟩ := mem_filterNS (hone ▸ List.mem_singleton_self c)
      refine ⟨db.patch c.id (c.value + d), s,
        add_pinned_patch (uniqueNS_of_single hone) d shards? u, ?_, ?_, ?_⟩
      · exact wfIds_patch hw c.id (c.value + d)
      · exact nodupShards_patch hns c.id (c.value + d)
      · rw [count_patch_mem hw hc hcn]
        ring
  }

theorem runAdds_spec (n : String) (calls : List AddCall) :
    ∀ db : DB, WfIds db → NodupShards db n →
      ∃ db', runAdds db n calls = some db' ∧ WfIds db' ∧ NodupShards db' n ∧
        count db' n = count db n + (calls.map (·.cnt)).sum := by
  induction calls with
  | nil => exact fun db hw hns => ⟨db, rfl, hw, hns, by simp⟩
  | cons c tl ih =>
    intro db hw hns
    obtain ⟨db1, j, hadd, hw1, hns1, hcount⟩ := add_step hw hns c.cnt c.shard? c.shards? c.u
    obtain ⟨db', hrun, hw', hns', hc'⟩ := ih db1 hw1 hns1
    refine ⟨db', ?_, hw', hns', ?_⟩
    · unfold runAdds
      rw [hadd]
      exact hrun
    · rw [hc', hcount]
      simp [add_assoc]

/-- C1: additivity of the write path — starting from a state with no records
for `name`, any finite sequence of adds (any pinned or random shard choices,
any shard counts) succeeds, and a subsequent `count` returns exactly the sum
of the deltas; in particular `count` of a name with no records is 0. -/
theorem c1_additivity (db : DB) (n : String) (calls : List AddCall)
    (hw : WfIds db) (h0 : ∀ r ∈ db.recs, r.name ≠ n) :
    count db n = 0 ∧
    ∃ db', runAdds db n calls = some db' ∧
      count db' n = (calls.map (·.cnt)).sum := by
  have hcoll : db.collectName n = [] := by
    unfold DB.collectName
    rw [List.filter_eq_nil_iff]
    intro a ha
    simp [h0 a ha]
  have h0c : count db n = 0 := by rw [count_eq, hcoll]; simp
  have hns : NodupShards db n := by unfold NodupShards; rw [hcoll]; simp
  obtain ⟨db', hrun, _, _, hc⟩ := runAdds_spec n calls db hw hns
  exact ⟨h0c, db', hrun, by rw [hc, h0c, zero_add]⟩

end ShardedCounter

namespace ShardedCounter

theorem map_patchFun_eq_self {l : List Rec} {i : Nat} (h : ∀ r ∈ l, r.id ≠ i) (w : ℚ) :
    l.map (patchFun i w) = l := by
  have hc : ∀ r ∈ l, patchFun i w r = id r := fun r hr => by simp [patchFun, h r hr]
  rw [List.map_congr_left hc, List.map_id]

theorem eq_of_mem_of_id_eq {db : DB} (hw : WfIds db) {r c : Rec}
    (hr : r ∈ db.recs) (hc : c ∈ db.recs) (hid : r.id = c.id) : r = c :=
  List.inj_on_of_nodup_map hw.1 hr hc hid

theorem mem_collectName {db : DB} {b : String} {r : Rec} (h : r ∈ db.collectName b) :
    r ∈ db.recs ∧ r.name = b := by
  have := List.mem_filter.mp h
  simpa using this

theorem collectName_insertRec_other {db : DB} {n b : String} (h : n ≠ b) (s w : ℚ) :
    (db.insertRec n s w).collectName b = db.collectName b := by
  unfold DB.insertRec DB.collectName
  rw [List.filter_append]
  simp [h]

theorem collectName_delete (db : DB) (i : Nat) (b : String) :
    (db.delete i).collectName b =
      (db.collectName b).filter (fun r => decide (r.id ≠ i)) := by
  unfold DB.delete DB.collectName
  rw [List.filter_filter, List.filter_filter]
  apply List.filter_congr
  intro a _
  by_cases h1 : a.name = b <;> by_cases h2 : a.id = i <;> simp [h1, h2]

theorem deleteAll_cons (db : DB) (c : Rec) (tl : List Rec) :
    deleteAll db (c :: tl) = deleteAll (db.delete c.id) tl := rfl

theorem deleteAll_collect_other {b : String} (toDel : List Rec) :
    ∀ db : DB, (∀ c ∈ toDel, ∀ r ∈ db.collectName b, r.id ≠ c.id) →
      (deleteAll db toDel).collectName b = db.collectName b := by
  induction toDel with
  | nil => exact fun db _ => rfl
  | cons c tl ih =>
    intro db h
    rw [deleteAll_cons]
    have h1 : (db.delete c.id).collectName b = db.collectName b := by
      rw [collectName_delete]
      apply List.filter_eq_self.mpr
      intro r hr
      simpa using h c (List.mem_cons_self c tl) r hr
    rw [ih (db.delete c.id) (fun c' hc' r hr => h c' (List.mem_cons_of_mem c hc') r (h1 ▸ hr)), h1]

theorem rebLoop_succ (counters : List Rec) (n : String) (vf : Nat → ℚ) (db : DB) (m : Nat) :
    rebLoop counters n vf db (m + 1) =
      (match counters.find? (fun c => decide (c.shard = (m : ℚ))) with
       | some c => (rebLoop counters n vf db m).patch c.id (vf m)
       | none => (rebLoop counters n vf db m).insertRec n (m : ℚ) (vf m)) := by
  unfold rebLoop
  rw [List.range_succ, List.foldl_append, List.foldl_cons, List.foldl_nil]

theorem rebLoop_collect_other {counters : List Rec} {a b : String} (hab : a ≠ b)
    {db : DB} (hw : WfIds db) (hca : ∀ c ∈ counters, c ∈ db.recs ∧ c.name = a)
    (vf : Nat → ℚ) (m : Nat) :
    (rebLoop counters a vf db m).collectName b = db.collectName b := by
  induction m with
  | zero => rfl
  | succ m ih =>
    rw [rebLoop_succ]
    split
    · next c hfind =>
        have hcm := hca c (List.mem_of_find?_eq_some hfind)
        rw [collectName_patch, ih]
        apply map_patchFun_eq_self
        intro r hr hid
        obtain ⟨hrdb, hrb⟩ := mem_collectName hr
        have hrc := eq_of_mem_of_id_eq hw hrdb hcm.1 hid
        exact hab (by rw [← hcm.2, ← hrc]; exact hrb)
    · next hfind =>
        rw [collectName_insertRec_other hab, ih]

theorem counters_mem {db : DB} {a : String} :
    ∀ c ∈ db.collectName a, c ∈ db.recs ∧ c.name = a := fun c hc => mem_collectName hc

/-- C9: cross-counter frame property — `add`, `rebalance` and `reset` on
counter `a` leave the records of any other counter `b` untouched, so
`count b` is unchanged. -/
theorem c9_frame (db : DB) (a b : String) (hw : WfIds db) (hab : a ≠ b)
    (d : ℚ) (shard? shards? S? : Option ℚ) (u : ℚ) :
    (∀ db' j, add db a d shard? shards? u = some (db', j) →
      db'.collectName b = db.collectName b ∧ count db' b = count db b) ∧
    ((rebalance db a S?).collectName b = db.collectName b ∧
      count (rebalance db a S?) b = count db b) ∧
    ((reset db a).collectName b = db.collectName b ∧
      count (reset db a) b = count db b) := by
  have hdel : ∀ db1 : DB, db1.collectName b = db.collectName b →
      ∀ toDel : List Rec, (∀ c ∈ toDel, c ∈ db.recs ∧ c.name = a) →
      (deleteAll db1 toDel).collectName b = db.collectName b := by
    intro db1 h1 toDel htd
    rw [deleteAll_collect_other toDel db1 ?_, h1]
    intro c hc r hr hid
    obtain ⟨hrdb, hrb⟩ := mem_collectName (h1 ▸ hr)
    have hrc := eq_of_mem_of_id_eq hw hrdb (htd c hc).1 hid
    exact hab (by rw [← (htd c hc).2, ← hrc]; exact hrb)
  refine ⟨?_, ?_, ?_⟩
  · intro db' j h
    suffices hs : db'.collectName b = db.collectName b by
      exact ⟨hs, by rw [count_eq, count_eq, hs]⟩
    rcases shard? with _ | s
    all_goals {
      first
      | (rw [add_unpinned] at h
         generalize hg : ((⌊u * shards?.getD DEFAULT_SHARD_COUNT⌋ : ℤ) : ℚ) = s at h)
      | skip
      rcases ho : db.uniqueNS a s with _ | o
      · rw [add_pinned_none ho] at h
        exact absurd h (by simp)
      · rcases uniqueNS_inv ho with ⟨rfl, hnil⟩ | ⟨c, rfl, hone⟩
        · rw [add_pinned_insert ho] at h
          have hdb' : db' = db.insertRec a s d :=
            congrArg Prod.fst (Option.some_injective _ h.symm)
          rw [hdb', collectName_insertRec_other hab]
        · rw [add_pinned_patch ho] at h
          have hdb' : db' = db.patch c.id (c.value + d) :=
            congrArg Prod.fst (Option.some_injective _ h.symm)
          obtain ⟨hcdb, hca, _⟩ := mem_filterNS (hone ▸ List.mem_singleton_self c)
          rw [hdb', collectName_patch]
          apply map_patchFun_eq_self
          intro r hr hid
          obtain ⟨hrdb, hrb⟩ := mem_collectName hr
          have hrc := eq_of_mem_of_id_eq hw hrdb hcdb hid
          exact hab (by rw [← hca, ← hrc]; exact hrb)
    }
  · have hloop := rebLoop_collect_other hab hw (@counters_mem db a)
      (fun _ => (db.collectName a).foldl (fun sum c => sum + c.value) 0 / S?.getD DEFAULT_SHARD_COUNT)
      (iterCount (S?.getD DEFAULT_SHARD_COUNT))
    have hs : (rebalance db a S?).collectName b = db.collectName b := by
      unfold rebalance
      exact hdel _ hloop _ (fun c hc =>
        counters_mem c (List.mem_of_mem_filter hc))
    exact ⟨hs, by rw [count_eq, count_eq, hs]⟩
  · have hs : (reset db a).collectName b = db.collectName b := by
      unfold reset
      exact hdel db rfl _ (@counters_mem db a)
    exact ⟨hs, by rw [count_eq, count_eq, hs]⟩

end ShardedCounter

namespace ShardedCounter

theorem uniqueInv_insertRec {db : DB} {n : String} {s : ℚ} (hu : UniqueInv db)
    (hnil : db.recs.filter (fun r => decide (r.name = n ∧ r.shard = s)) = [])
    (w : ℚ) : UniqueInv (db.insertRec n s w) := by
  unfold UniqueInv
  rw [pairs_insertRec, List.nodup_append]
  refine ⟨hu, List.nodup_singleton _, ?_⟩
  intro p hp hps
  simp only [List.mem_singleton] at hps
  subst hps
  obtain ⟨r, hr, hrp⟩ := List.mem_map.mp hp
  rw [List.filter_eq_nil_iff] at hnil
  have h1 : r.name = n := congrArg Prod.fst hrp
  have h2 : r.shard = s := congrArg Prod.snd hrp
  exact hnil r hr (by simp [h1, h2])

theorem insIdxs_succ (counters : List Rec) (m : Nat) :
    insIdxs counters (m + 1) = insIdxs counters m ++
      (if (counters.find? (fun c => decide (c.shard = (m : ℚ)))).isNone
        then [m] else []) := by
  unfold insIdxs
  rw [List.range_succ, List.filter_append]
  by_cases h : (counters.find? (fun c => decide (c.shard = (m : ℚ)))).isNone <;>
    simp [h]

theorem pairs_rebLoop (counters : List Rec) (n : String) (vf : Nat → ℚ) (db : DB)
    (m : Nat) :
    pairs (rebLoop counters n vf db m) =
      pairs db ++ (insIdxs counters m).map (fun (i : Nat) => (n, (i : ℚ))) := by
  induction m with
  | zero =>
    have h0 : insIdxs counters 0 = [] := rfl
    rw [h0]
    simp [rebLoop]
  | succ m ih =>
    rw [rebLoop_succ, insIdxs_succ]
    split
    · next c hfind =>
        rw [pairs_patch, ih, hfind]
        simp
    · next hfind =>
        rw [pairs_insertRec, ih, hfind]
        simp

theorem recs_deleteAll_sublist (toDel : List Rec) :
    ∀ db : DB, List.Sublist (deleteAll db toDel).recs db.recs := by
  induction toDel with
  | nil => exact fun db => List.Sublist.refl _
  | cons c tl ih =>
    intro db
    rw [deleteAll_cons]
    exact (ih (db.delete c.id)).trans (List.filter_sublist db.recs)

theorem insIdxs_nodup (counters : List Rec) (m : Nat) : (insIdxs counters m).Nodup := by
  unfold insIdxs
  exact (List.nodup_range m).filter _

theorem uniqueInv_deleteAll {db : DB} (hu : UniqueInv db) (toDel : List Rec) :
    UniqueInv (deleteAll db toDel) :=
  (((recs_deleteAll_sublist toDel db).map _)).nodup hu

theorem uniqueInv_rebLoop {db : DB} {n : String} (hu : UniqueInv db)
    (vf : Nat → ℚ) (m : Nat) :
    UniqueInv (rebLoop (db.collectName n) n vf db m) := by
  unfold UniqueInv
  rw [pairs_rebLoop, List.nodup_append]
  refine ⟨hu, ?_, ?_⟩
  · exact List.Nodup.map
      (fun i j hij => by
        have h2 : ((i : ℚ)) = (j : ℚ) := congrArg Prod.snd hij
        exact_mod_cast h2)
      (insIdxs_nodup _ _)
  · intro p hp hpi
    obtain ⟨i, hi, rfl⟩ := List.mem_map.mp hpi
    obtain ⟨r, hr, hrp⟩ := List.mem_map.mp hp
    have h1 : r.name = n := congrArg Prod.fst hrp
    have h2 : r.shard = (i : ℚ) := congrArg Prod.snd hrp
    unfold insIdxs at hi
    have := List.of_mem_filter hi
    rw [Option.isNone_iff_eq_none, List.find?_eq_none] at this
    exact this r (by unfold DB.collectName; rw [List.mem_filter]; simp [hr, h1])
      (by simp [h2])

/-- C8: the uniqueness invariant — at most one shard record per `(name,
shard)` pair — is preserved by `add`, `rebalance` and `reset` (the queries
`count` and `estimateCount` do not modify the state at all in this model:
they return values, not states). -/
theorem c8_unique_preserved (db : DB) (n : String) (d : ℚ)
    (shard? shards? S? : Option ℚ) (u : ℚ) (hu : UniqueInv db) :
    (∀ db' j, add db n d shard? shards? u = some (db', j) → UniqueInv db') ∧
    UniqueInv (rebalance db n S?) ∧ UniqueInv (reset db n) := by
  refine ⟨?_, ?_, ?_⟩
  · intro db' j h
    rcases shard? with _ | s
    all_goals {
      first
      | (rw [add_unpinned] at h
         generalize hg : ((⌊u * shards?.getD DEFAULT_SHARD_COUNT⌋ : ℤ) : ℚ) = s at h)
      | skip
      rcases ho : db.uniqueNS n s with _ | o
      · rw [add_pinned_none ho] at h
        exact absurd h (by simp)
      · rcases uniqueNS_inv ho with ⟨rfl, hnil⟩ | ⟨c, rfl, hone⟩
        · rw [add_pinned_insert ho] at h
          have hdb' : db' = db.insertRec n s d :=
            congrArg Prod.fst (Option.some_injective _ h.symm)
          rw [hdb']
          exact uniqueInv_insertRec hu hnil d
        · rw [add_pinned_patch ho] at h
          have hdb' : db' = db.patch c.id (c.value + d) :=
            congrArg Prod.fst (Option.some_injective _ h.symm)
          rw [hdb']
          unfold UniqueInv
          rw [pairs_patch]
          exact hu
    }
  · unfold rebalance
    exact uniqueInv_deleteAll (uniqueInv_rebLoop hu _ _) _
  · unfold reset
    exact uniqueInv_deleteAll hu _

end ShardedCounter

namespace ShardedCounter

theorem getD_mem_or (l : List Nat) (j : Nat) : l.getD j 0 ∈ l ∨ l.getD j 0 = 0 := by
  by_cases hj : j < l.length
  · left
    rw [List.getD_eq_getElem?_getD, List.getElem?_eq_getElem hj]
    exact List.getElem_mem hj
  · right
    rw [List.getD_eq_getElem?_getD, List.getElem?_eq_none (by omega)]
    rfl

theorem mem_jsSwap {l : List Nat} {i j x : Nat} (h : x ∈ jsSwap l i j) :
    x ∈ l ∨ x = 0 := by
  unfold jsSwap at h
  rcases List.mem_or_eq_of_mem_set h with h1 | h1
  · rcases List.mem_or_eq_of_mem_set h1 with h2 | h2
    · exact Or.inl h2
    · rcases getD_mem_or l j with h3 | h3
      · exact Or.inl (h2 ▸ h3)
      · exact Or.inr (h2 ▸ h3)
  · rcases getD_mem_or l i with h3 | h3
    · exact Or.inl (h1 ▸ h3)
    · exact Or.inr (h1 ▸ h3)

theorem mem_shuffleLoop {rands : Nat → ℚ} :
    ∀ (i k : Nat) (l : List Nat) (x : Nat), x ∈ shuffleLoop rands k i l →
      x ∈ l ∨ x = 0 := by
  intro i
  induction i with
  | zero => exact fun k l x h => Or.inl h
  | succ i ih =>
    intro k l x h
    rw [shuffleLoop] at h
    rcases ih (k + 1) _ x h with h1 | h1
    · exact mem_jsSwap h1
    · exact Or.inr h1

theorem mem_shuffle {l : List Nat} {rands : Nat → ℚ} {x : Nat}
    (h : x ∈ shuffle l rands) : x ∈ l ∨ x = 0 :=
  mem_shuffleLoop _ _ _ _ h

theorem length_jsSwap (l : List Nat) (i j : Nat) : (jsSwap l i j).length = l.length := by
  simp [jsSwap]

theorem length_shuffleLoop {rands : Nat → ℚ} :
    ∀ (i k : Nat) (l : List Nat), (shuffleLoop rands k i l).length = l.length := by
  intro i
  induction i with
  | zero => exact fun k l => rfl
  | succ i ih =>
    intro k l
    rw [shuffleLoop, ih, length_jsSwap]

theorem length_shuffle (l : List Nat) (rands : Nat → ℚ) :
    (shuffle l rands).length = l.length :=
  length_shuffleLoop _ _ _

theorem sampleIdxs_lt (S : Nat) (rfs : ℚ) (rands : Nat → ℚ) :
    ∀ x ∈ sampleIdxs (S : ℚ) rfs rands, x < S := by
  intro x hx
  unfold sampleIdxs at hx
  have hfl : ((⌊(S : ℚ)⌋).toNat) = S := by simp
  rw [hfl] at hx
  have hx' := List.take_subset _ _ hx
  rcases Nat.eq_zero_or_pos S with rfl | hS
  · have : shuffle (List.range 0) rands = [] := by
      have := length_shuffle (List.range 0) rands
      simpa using List.eq_nil_of_length_eq_zero (by simpa using this)
    rw [this] at hx'
    cases hx'
  · rcases mem_shuffle hx' with h | h
    · exact List.mem_range.mp h
    · omega

/-- C10 (implicit): `add` performs no validation of a pinned shard index —
any pinned `i` (negative, fractional, or at least the shard count) is written
to and returned, a later `count` includes that record's value, while
`estimateCount` only ever samples natural indices below the shard count. -/
theorem c10_no_pin_validation (db : DB) (n : String) (d i : ℚ)
    (shards? : Option ℚ) (u : ℚ) (hw : WfIds db) :
    (∀ db' j, add db n d (some i) shards? u = some (db', j) →
      j = i ∧ count db' n = count db n + d) ∧
    (∀ (S : Nat) (rfs : ℚ) (rands : Nat → ℚ),
      ∀ x ∈ sampleIdxs (S : ℚ) rfs rands, x < S) := by
  refine ⟨?_, fun S rfs rands => sampleIdxs_lt S rfs rands⟩
  intro db' j h
  rcases ho : db.uniqueNS n i with _ | o
  · rw [add_pinned_none ho] at h
    exact absurd h (by simp)
  · rcases uniqueNS_inv ho with ⟨rfl, hnil⟩ | ⟨c, rfl, hone⟩
    · rw [add_pinned_insert ho] at h
      have hj : j = i := congrArg Prod.snd (Option.some_injective _ h.symm)
      have hdb' : db' = db.insertRec n i d :=
        congrArg Prod.fst (Option.some_injective _ h.symm)
      exact ⟨hj, by rw [hdb', count_insertRec_self]⟩
    · rw [add_pinned_patch ho] at h
      have hj : j = i := congrArg Prod.snd (Option.some_injective _ h.symm)
      have hdb' : db' = db.patch c.id (c.value + d) :=
        congrArg Prod.fst (Option.some_injective _ h.symm)
      obtain ⟨hcdb, hcn, _⟩ := mem_filterNS (hone ▸ List.mem_singleton_self c)
      refine ⟨hj, ?_⟩
      rw [hdb', count_patch_mem hw hcdb hcn]
      ring

/-- C7 counterexample: `add` with the invalid configuration `shards = 0`
does not fail — it proceeds to choose shard 0, accesses the store and
inserts a record. -/
theorem c7_counterexample :
    add ⟨[], 0⟩ "x" 5 none (some 0) (1/2) =
      some (⟨[⟨0, "x", 0, 5⟩], 1⟩, 0) := by
  norm_num [add, DB.uniqueNS, DB.insertRec, DEFAULT_SHARD_COUNT]

/-- C7 (amended): no operation rejects an invalid configuration.  `add` with
`shards = 0` silently behaves as a pinned write to shard 0; `estimateCount`
silently clamps any `readFromShards` to `min(max(1, r), S)`; `rebalance`
with `shards = 0` runs no loop iteration and deletes every record of the
name at a nonnegative shard index, all without signalling an error. -/
theorem c7_no_validation (db : DB) (n : String) (d rfs : ℚ) (u : ℚ) (S : Nat)
    (rands : Nat → ℚ) (hS : 1 ≤ S) :
    add db n d none (some 0) u = add db n d (some 0) (some 0) u ∧
    estimateCount db n (some rfs) (some (S : ℚ)) rands =
      estimateCount db n (some (min (max 1 rfs) (S : ℚ))) (some (S : ℚ)) rands ∧
    rebalance db n (some 0) =
      deleteAll db ((db.collectName n).filter (fun c => decide ((0 : ℚ) ≤ c.shard))) := by
  refine ⟨?_, ?_, ?_⟩
  · rw [add_unpinned]
    norm_num
  · have hS1 : (1 : ℚ) ≤ (S : ℚ) := by exact_mod_cast hS
    have h1 : (1 : ℚ) ≤ min (max 1 rfs) (S : ℚ) := le_min (le_max_left _ _) hS1
    have key : min (max 1 (min (max 1 rfs) (S : ℚ))) (S : ℚ) = min (max 1 rfs) (S : ℚ) := by
      rw [max_eq_right h1, min_eq_left (min_le_right _ _)]
    simp only [estimateCount, Option.getD_some]
    rw [key]
  · norm_num [rebalance, iterCount, rebLoop]

/-- C2 counterexample: from the reachable state holding a single record for
"x" pinned at shard `-1` (value 5, so `count = 5`), `rebalance` to 1 shard
leaves two records and doubles the count to 10 — the rebalance postcondition
fails for states with records outside `[0, S')`. -/
theorem c2_counterexample :
    count (⟨[⟨0, "x", -1, 5⟩], 1⟩ : DB) "x" = 5 ∧
    count (rebalance ⟨[⟨0, "x", -1, 5⟩], 1⟩ "x" (some 1)) "x" = 10 ∧
    ((rebalance ⟨[⟨0, "x", -1, 5⟩], 1⟩ "x" (some 1)).collectName "x").length = 2 := by
  refine ⟨by norm_num [count, DB.collectName, List.filter], ?_, ?_⟩ <;>
    norm_num [rebalance, rebLoop, iterCount, deleteAll, count, DB.collectName,
      DB.insertRec, DB.delete, List.filter, List.range_succ, List.find?, DB.patch]

/-- C3 counterexample: the main component's `rebalance` of a total of 1 over
2 shards writes the even share 1/2 to both shards, not the
remainder-distributed values `base + extra` (here `floor(1/2) + 1 = 1` for
shard 0) that the claim describes. -/
theorem c3_counterexample :
    ((rebalance ⟨[⟨0, "x", 0, 1⟩], 1⟩ "x" (some 2)).recs.map
      (fun r => (r.shard, r.value))) = [((0 : ℚ), 1/2), ((1 : ℚ), 1/2)] ∧
    ¬ ((1 : ℚ)/2 = ((⌊(1 : ℚ)/2⌋ : ℤ) : ℚ) + 1) := by
  constructor
  · norm_num [rebalance, rebLoop, iterCount, deleteAll, count, DB.collectName,
      DB.insertRec, DB.delete, List.filter, List.find?,
      DB.patch, patchFun, DEFAULT_SHARD_COUNT,
      (show List.range (Int.toNat 2) = [0, 1] from rfl)]
  · norm_num

/-- C4 counterexample: with one shard configured but the counter's only
record pinned at shard index 1, full sampling (`readFromShards = shards = 1`)
reads only shard 0 and returns 0, while the exact `count` returns 5. -/
theorem c4_counterexample :
    estimateCount ⟨[⟨0, "x", 1, 5⟩], 1⟩ "x" (some 1) (some 1) (fun _ => 0) = some 0 ∧
    count ⟨[⟨0, "x", 1, 5⟩], 1⟩ "x" = 5 ∧ ((0 : ℚ) ≠ 5) := by
  refine ⟨?_, by norm_num [count, DB.collectName, List.filter], by norm_num⟩
  norm_num [estimateCount, sampleIdxs, shuffle, shuffleLoop, readShards,
    readShardsFrom, DB.uniqueNS, List.filter, List.range_succ]

end ShardedCounter

namespace ShardedCounter

theorem count_le_of_getElem {l : List Nat} {i : Nat} (hi : i < l.length) {x : Nat}
    (h : l[i] = x) : 1 ≤ l.count x :=
  List.count_pos_iff.mpr (h ▸ List.getElem_mem hi)

theorem jsSwap_perm {l : List Nat} {i j : Nat} (hi : i < l.length)
    (hj : j < l.length) : (jsSwap l i j).Perm l := by
  rw [List.perm_iff_count]
  intro x
  unfold jsSwap
  have hj' : j < (l.set i (l.getD j 0)).length := by
    rw [List.length_set]; exact hj
  by_cases hij : i = j
  · subst hij
    rw [List.count_set _ _ _ _ hj', List.count_set _ _ _ _ hi,
      List.getElem_set_self]
    simp only [List.getD_eq_getElem l 0 hi]
    by_cases hx : l[i] = x
    · have h1 := count_le_of_getElem hi hx
      simp [hx] <;> omega
    · simp [hx]
  · rw [List.count_set _ _ _ _ hj', List.count_set _ _ _ _ hi,
      List.getElem_set_ne (show i ≠ j from hij)]
    simp only [List.getD_eq_getElem l 0 hi, List.getD_eq_getElem l 0 hj]
    by_cases hx1 : l[i] = x <;> by_cases hx2 : l[j] = x
    · have h1 := count_le_of_getElem hi hx1
      simp [hx1, hx2] <;> omega
    · have h1 := count_le_of_getElem hi hx1
      simp [hx1, hx2] <;> omega
    · have h2 := count_le_of_getElem hj hx2
      simp [hx1, hx2] <;> omega
    · simp [hx1, hx2]

theorem shuffleLoop_perm {rands : Nat → ℚ} (hr : ∀ k, 0 ≤ rands k ∧ rands k < 1) :
    ∀ (i k : Nat) (l : List Nat), i < l.length →
      (shuffleLoop rands k i l).Perm l := by
  intro i
  induction i with
  | zero => exact fun k l _ => List.Perm.refl l
  | succ i ih =>
    intro k l hlt
    rw [shuffleLoop]
    have hfl : ⌊rands k * ((i : ℚ) + 2)⌋ < (i : ℤ) + 2 := by
      apply Int.floor_lt.mpr
      push_cast
      have hpos : (0 : ℚ) < (i : ℚ) + 2 := by positivity
      calc rands k * ((i : ℚ) + 2) < 1 * ((i : ℚ) + 2) :=
            mul_lt_mul_of_pos_right (hr k).2 hpos
        _ = (i : ℚ) + 2 := one_mul _
    have hj : (⌊rands k * ((i : ℚ) + 2)⌋).toNat < l.length := by omega
    have hlen : i < (jsSwap l (i + 1) (⌊rands k * ((i : ℚ) + 2)⌋).toNat).length := by
      rw [length_jsSwap]; omega
    exact (ih (k + 1) _ hlen).trans (jsSwap_perm hlt hj)

theorem shuffle_perm {l : List Nat} {rands : Nat → ℚ}
    (hr : ∀ k, 0 ≤ rands k ∧ rands k < 1) : (shuffle l rands).Perm l := by
  unfold shuffle
  rcases hl : l.length with _ | len
  · have : l = [] := List.eq_nil_of_length_eq_zero hl
    subst this
    exact List.Perm.refl _
  · exact shuffleLoop_perm hr len 0 l (by omega)

theorem nodupShards_of_uniqueInv {db : DB} (hu : UniqueInv db) (n : String) :
    NodupShards db n := by
  unfold NodupShards
  have hmap : (db.collectName n).map (fun r => (r.name, r.shard)) =
      (pairs db).filter (fun p => decide (p.1 = n)) := by
    unfold DB.collectName pairs
    rw [List.filter_map]
    rfl
  have hnd : ((db.collectName n).map (fun r => (r.name, r.shard))).Nodup := by
    rw [hmap]
    exact hu.filter _
  have hshards : (db.collectName n).map (·.shard) =
      ((db.collectName n).map (fun r => (r.name, r.shard))).map Prod.snd := by
    rw [List.map_map]
    rfl
  rw [hshards]
  apply List.Nodup.map_on ?_ hnd
  intro p hp q hq hpq
  obtain ⟨rp, hrp, rfl⟩ := List.mem_map.mp hp
  obtain ⟨rq, hrq, rfl⟩ := List.mem_map.mp hq
  have h1 : rp.name = n := (mem_collectName hrp).2
  have h2 : rq.name = n := (mem_collectName hrq).2
  simp only [Prod.mk.injEq]
  exact ⟨h1.trans h2.symm, hpq⟩

theorem shardValue_of_nil {db : DB} {n : String} {s : ℚ}
    (h : db.recs.filter (fun r => decide (r.name = n ∧ r.shard = s)) = []) :
    shardValue db n s = 0 := by
  unfold shardValue
  rw [h]
  rfl

theorem shardValue_of_single {db : DB} {n : String} {s : ℚ} {c : Rec}
    (h : db.recs.filter (fun r => decide (r.name = n ∧ r.shard = s)) = [c]) :
    shardValue db n s = c.value := by
  unfold shardValue
  rw [h]
  simp

theorem readShardsFrom_spec {db : DB} {n : String} (hu : NodupShards db n) :
    ∀ (idxs : List Nat) (a : ℚ), readShardsFrom db n a idxs =
      some (a + (idxs.map (fun (i : Nat) => shardValue db n (i : ℚ))).sum) := by
  intro idxs
  induction idxs with
  | nil => intro a; simp [readShardsFrom]
  | cons i tl ih =>
    intro a
    rcases filterNS_short hu ((i : Nat) : ℚ) with hnil | ⟨c, hone⟩
    · simp only [readShardsFrom, uniqueNS_of_nil hnil]
      rw [ih]
      simp only [List.map_cons, List.sum_cons]
      exact congrArg some (by rw [shardValue_of_nil hnil]; ring)
    · simp only [readShardsFrom, uniqueNS_of_single hone]
      rw [ih]
      simp only [List.map_cons, List.sum_cons]
      exact congrArg some (by rw [shardValue_of_single hone]; ring)

theorem readShards_spec {db : DB} {n : String} (hu : NodupShards db n)
    (idxs : List Nat) :
    readShards db n idxs =
      some ((idxs.map (fun (i : Nat) => shardValue db n (i : ℚ))).sum) := by
  unfold readShards
  rw [readShardsFrom_spec hu, zero_add]

theorem sum_map_range_ite (S k : Nat) (hk : k < S) (v : ℚ) (g : Nat → ℚ) :
    ((List.range S).map (fun i => if i = k then v + g i else g i)).sum =
      v + ((List.range S).map g).sum := by
  induction S with
  | zero => exact absurd hk (Nat.not_lt_zero k)
  | succ S ih =>
    rw [List.range_succ, List.map_append, List.map_append, List.sum_append,
      List.sum_append]
    by_cases hkS : k = S
    · subst hkS
      have hhead : (List.range k).map (fun i => if i = k then v + g i else g i) =
          (List.range k).map g := by
        apply List.map_congr_left
        intro i hi
        have : i ≠ k := by
          have := List.mem_range.mp hi
          omega
        simp [this]
      rw [hhead]
      simp
      ring
    · have hklt : k < S := by omega
      rw [ih hklt]
      simp only [List.map_cons, List.map_nil, List.sum_cons, List.sum_nil]
      rw [if_neg (fun h => hkS h.symm)]
      ring

theorem sum_filter_shard (n : String) (S : Nat) :
    ∀ l : List Rec, (∀ r ∈ l, r.name = n → ∃ k : Nat, k < S ∧ r.shard = (k : ℚ)) →
    ((List.range S).map (fun (i : Nat) =>
      ((l.filter (fun r => decide (r.name = n ∧ r.shard = (i : ℚ)))).map
        (·.value)).sum)).sum
    = ((l.filter (fun r => decide (r.name = n))).map (·.value)).sum := by
  intro l
  induction l with
  | nil => intro _; simp
  | cons r tl ih =>
    intro hin
    have ihtl := ih (fun r' hr' => hin r' (List.mem_cons_of_mem r hr'))
    by_cases hname : r.name = n
    · obtain ⟨k, hkS, hks⟩ := hin r (List.mem_cons_self r tl) hname
      have hterm : ∀ i ∈ List.range S,
          ((((r :: tl).filter (fun x => decide (x.name = n ∧ x.shard = (i : ℚ)))).map
            (·.value)).sum) =
          (if i = k then r.value +
              (((tl.filter (fun x => decide (x.name = n ∧ x.shard = (i : ℚ)))).map
                (·.value)).sum)
            else (((tl.filter (fun x => decide (x.name = n ∧ x.shard = (i : ℚ)))).map
                (·.value)).sum)) := by
        intro i _
        by_cases hik : i = k
        · subst hik
          rw [List.filter_cons_of_pos (by simp [hname, hks])]
          simp
        · rw [List.filter_cons_of_neg ?_]
          · simp [hik]
          · simp only [decide_eq_true_eq, not_and]
            intro _
            rw [hks]
            intro hcast
            exact hik (by exact_mod_cast hcast.symm)
      rw [List.map_congr_left hterm, sum_map_range_ite S k hkS,
        List.filter_cons_of_pos (by simp [hname])]
      simp only [List.map_cons, List.sum_cons]
      rw [ihtl]
    · have hterm : ∀ i ∈ List.range S,
          ((((r :: tl).filter (fun x => decide (x.name = n ∧ x.shard = (i : ℚ)))).map
            (·.value)).sum) =
          (((tl.filter (fun x => decide (x.name = n ∧ x.shard = (i : ℚ)))).map
            (·.value)).sum) := by
        intro i _
        rw [List.filter_cons_of_neg (by simp [hname])]
      rw [List.map_congr_left hterm, ihtl,
        List.filter_cons_of_neg (by simp [hname])]

theorem sum_shardValue_range {db : DB} {n : String} {S : Nat}
    (hin : ∀ r ∈ db.recs, r.name = n → ∃ k : Nat, k < S ∧ r.shard = (k : ℚ)) :
    ((List.range S).map (fun (i : Nat) => shardValue db n (i : ℚ))).sum =
      count db n := by
  rw [count_eq]
  unfold shardValue DB.collectName
  exact sum_filter_shard n S db.recs hin

/-- C4 (amended): on a state whose records for `name` all sit at natural
shard indices below `S` (with the uniqueness invariant), full sampling
(`readFromShards = shards = S`) returns exactly the exact count, for every
outcome of the random shuffle. -/
theorem c4_full_sampling (db : DB) (n : String) (S : Nat) (rands : Nat → ℚ)
    (hS : 1 ≤ S) (hr : ∀ k, 0 ≤ rands k ∧ rands k < 1) (hu : UniqueInv db)
    (hin : ∀ r ∈ db.recs, r.name = n → ∃ k : Nat, k < S ∧ r.shard = (k : ℚ)) :
    estimateCount db n (some (S : ℚ)) (some (S : ℚ)) rands = some (count db n) := by
  have hS1 : (1 : ℚ) ≤ (S : ℚ) := by exact_mod_cast hS
  have hSne : ((S : ℚ)) ≠ 0 := by positivity
  have hcl : min (max 1 (S : ℚ)) (S : ℚ) = (S : ℚ) := by
    rw [max_eq_right hS1, min_self]
  have hfl : (⌊(S : ℚ)⌋).toNat = S := by simp
  have hlen : (shuffle (List.range S) rands).length = S := by
    rw [length_shuffle]; simp
  have hsample : sampleIdxs (S : ℚ) (S : ℚ) rands = shuffle (List.range S) rands := by
    unfold sampleIdxs
    rw [hfl]
    exact List.take_of_length_le (by rw [hlen])
  have hperm : (shuffle (List.range S) rands).Perm (List.range S) := shuffle_perm hr
  simp only [estimateCount, Option.getD_some]
  rw [hcl, hsample, readShards_spec (nodupShards_of_uniqueInv hu n)]
  have hsum : ((shuffle (List.range S) rands).map
      (fun (i : Nat) => shardValue db n (i : ℚ))).sum =
      ((List.range S).map (fun (i : Nat) => shardValue db n (i : ℚ))).sum :=
    (hperm.map _).sum_eq
  rw [Option.map_some', hsum, sum_shardValue_range hin]
  congr 1
  rw [mul_div_assoc, div_self hSne, mul_one]

/-- C5: the estimator's sampling contract — the effective sample size is
`k = min(max(1, readFromShards), S)`, the sampled shard indices are pairwise
distinct naturals below `S`, and the returned value is the sum of the sampled
shards' values multiplied by `S / k`. -/
theorem c5_sampling_contract (db : DB) (n : String) (S rfs : Nat)
    (rands : Nat → ℚ) (hS : 1 ≤ S) (hr : ∀ k, 0 ≤ rands k ∧ rands k < 1)
    (hu : UniqueInv db) :
    (sampleIdxs (S : ℚ) (min (max 1 (rfs : ℚ)) (S : ℚ)) rands).length =
      min (max 1 rfs) S ∧
    (sampleIdxs (S : ℚ) (min (max 1 (rfs : ℚ)) (S : ℚ)) rands).Nodup ∧
    (∀ x ∈ sampleIdxs (S : ℚ) (min (max 1 (rfs : ℚ)) (S : ℚ)) rands, x < S) ∧
    estimateCount db n (some (rfs : ℚ)) (some (S : ℚ)) rands =
      some (((sampleIdxs (S : ℚ) (min (max 1 (rfs : ℚ)) (S : ℚ)) rands).map
          (fun (i : Nat) => shardValue db n (i : ℚ))).sum * (S : ℚ) /
        ((min (max 1 rfs) S : Nat) : ℚ)) := by
  have hcast : ((min (max 1 rfs) S : Nat) : ℚ) = min (max 1 (rfs : ℚ)) (S : ℚ) := by
    push_cast
    rfl
  have hfl : (⌊(S : ℚ)⌋).toNat = S := by simp
  have hflk : (⌊min (max 1 (rfs : ℚ)) (S : ℚ)⌋).toNat = min (max 1 rfs) S := by
    rw [← hcast, Int.floor_natCast, Int.toNat_natCast]
  have hlen : (shuffle (List.range S) rands).length = S := by
    rw [length_shuffle]; simp
  have hperm : (shuffle (List.range S) rands).Perm (List.range S) := shuffle_perm hr
  refine ⟨?_, ?_, fun x hx => sampleIdxs_lt S _ rands x hx, ?_⟩
  · unfold sampleIdxs
    rw [hfl, hflk, List.length_take, hlen]
    exact Nat.min_eq_left (Nat.min_le_right _ _)
  · unfold sampleIdxs
    apply List.Nodup.sublist (List.take_sublist _ _)
    rw [hfl]
    exact hperm.nodup_iff.mpr (List.nodup_range S)
  · simp only [estimateCount, Option.getD_some]
    rw [readShards_spec (nodupShards_of_uniqueInv hu n), Option.map_some', hcast]

end ShardedCounter

namespace ShardedCounter

theorem extraCounts_zero : extraCounts 0 = [] := by
  rw [extraCounts]
  norm_num

theorem extraCounts_closed (r : ℚ) (h0 : 0 ≤ r) :
    extraCounts r = List.replicate ((⌊r⌋).toNat) 1 ++
      (if r - ((⌊r⌋ : ℤ) : ℚ) = 0 then [] else [r - ((⌊r⌋ : ℤ) : ℚ)]) := by
  generalize hn : (⌊r⌋).toNat = nn
  induction nn generalizing r with
  | zero =>
    have hfl : ⌊r⌋ = 0 := by
      have h1 : (0 : ℤ) ≤ ⌊r⌋ := Int.floor_nonneg.mpr h0
      omega
    have hlt : r < 1 := by
      have := Int.lt_floor_add_one r
      rw [hfl] at this
      push_cast at this
      linarith
    rcases eq_or_lt_of_le h0 with rfl | hpos
    · rw [extraCounts_zero]
      norm_num
    · rw [extraCounts]
      rw [dif_pos (by rwa [abs_of_pos hpos])]
      rw [if_neg (by rw [abs_of_pos hpos]; linarith)]
      rw [sub_self, extraCounts_zero]
      rw [hfl]
      have hrne : r ≠ 0 := ne_of_gt hpos
      norm_num [hrne]
  | succ nn ih =>
    have hfl : ⌊r⌋ = (nn : ℤ) + 1 := by
      have h1 : (0 : ℤ) ≤ ⌊r⌋ := Int.floor_nonneg.mpr h0
      omega
    have hr1 : (1 : ℚ) ≤ r := by
      have := Int.floor_le r
      rw [hfl] at this
      push_cast at this
      have hnn : (0 : ℚ) ≤ (nn : ℚ) := by positivity
      linarith
    have hfl' : ⌊r - 1⌋ = (nn : ℤ) := by
      rw [show r - 1 = r - (1 : ℤ) by norm_num, Int.floor_sub_int, hfl]
      ring
    have ihr := ih (r - 1) (by linarith) (by rw [hfl']; simp)
    rw [extraCounts]
    rw [dif_pos (by rw [abs_of_pos (by linarith)]; linarith)]
    rw [if_pos (by rwa [abs_of_pos (by linarith)])]
    rw [if_pos (by linarith)]
    rw [ihr, hfl, hfl']
    have hfrac : r - 1 - ((nn : ℤ) : ℚ) = r - (((nn : ℤ) + 1 : ℤ) : ℚ) := by
      push_cast
      ring
    rw [hfrac, List.replicate_succ, List.cons_append]

theorem remainder_bounds (T : ℚ) (S' : Nat) (hS : 1 ≤ S') :
    0 ≤ T - ((⌊T / (S' : ℚ)⌋ : ℤ) : ℚ) * (S' : ℚ) ∧
      T - ((⌊T / (S' : ℚ)⌋ : ℤ) : ℚ) * (S' : ℚ) < (S' : ℚ) := by
  have hpos : (0 : ℚ) < (S' : ℚ) := by
    have : (1 : ℚ) ≤ (S' : ℚ) := by exact_mod_cast hS
    linarith
  have h1 : ((⌊T / (S' : ℚ)⌋ : ℤ) : ℚ) ≤ T / (S' : ℚ) := Int.floor_le _
  have h2 : T / (S' : ℚ) < ((⌊T / (S' : ℚ)⌋ : ℤ) : ℚ) + 1 := Int.lt_floor_add_one _
  constructor
  · have := mul_le_mul_of_nonneg_right h1 (le_of_lt hpos)
    rw [div_mul_cancel₀ T (ne_of_gt hpos)] at this
    linarith
  · have := mul_lt_mul_of_pos_right h2 hpos
    rw [div_mul_cancel₀ T (ne_of_gt hpos)] at this
    nlinarith

theorem natIdx_natCast (k : Nat) : natIdx ((k : ℚ)) = some k := by
  unfold natIdx
  rw [Int.floor_natCast, Int.toNat_natCast, if_pos rfl]

theorem natIdx_eq_some {q : ℚ} {k : Nat} (h : natIdx q = some k) : q = (k : ℚ) := by
  unfold natIdx at h
  split at h
  · next hq =>
      have hk : (⌊q⌋).toNat = k := Option.some_injective _ h
      rw [hq, hk]
  · exact absurd h (by simp)

theorem patchedRec_id (n : String) (vf : Nat → ℚ) (m : Nat) (r : Rec) :
    (patchedRec n vf m r).id = r.id := by
  unfold patchedRec
  rcases natIdx r.shard with _ | k
  · rfl
  · dsimp only
    split <;> rfl

theorem patchedRec_name (n : String) (vf : Nat → ℚ) (m : Nat) (r : Rec) :
    (patchedRec n vf m r).name = r.name := by
  unfold patchedRec
  rcases natIdx r.shard with _ | k
  · rfl
  · dsimp only
    split <;> rfl

theorem patchedRec_shard (n : String) (vf : Nat → ℚ) (m : Nat) (r : Rec) :
    (patchedRec n vf m r).shard = r.shard := by
  unfold patchedRec
  rcases natIdx r.shard with _ | k
  · rfl
  · dsimp only
    split <;> rfl

theorem mem_insertedRecs {C : List Rec} {n : String} {vf : Nat → ℚ}
    {start m : Nat} {r : Rec} (h : r ∈ insertedRecs C n vf start m) :
    start ≤ r.id ∧ r.name = n ∧
      ∃ i ∈ insIdxs C m, r.shard = (i : ℚ) ∧ r.value = vf i := by
  unfold insertedRecs at h
  obtain ⟨p, hp, rfl⟩ := List.mem_map.mp h
  have hp2 : p.2 ∈ insIdxs C m := by
    rw [List.enum_eq_zip_range] at hp
    exact (List.of_mem_zip hp).2
  exact ⟨Nat.le_add_right _ _, rfl, p.2, hp2, rfl, rfl⟩

theorem iterCount_natCast (S : Nat) : iterCount ((S : ℚ)) = S := by
  unfold iterCount
  rw [Int.ceil_natCast, Int.toNat_natCast]

end ShardedCounter

namespace ShardedCounter

theorem pair_inj {db : DB} (hu : UniqueInv db) {r c : Rec}
    (hr : r ∈ db.recs) (hc : c ∈ db.recs) (h1 : r.name = c.name)
    (h2 : r.shard = c.shard) : r = c := by
  unfold UniqueInv pairs at hu
  exact List.inj_on_of_nodup_map hu hr hc (by rw [h1, h2])

theorem rebLoop_recs_spec {db : DB} {n : String} (hw : WfIds db) (hu : UniqueInv db)
    (vf : Nat → ℚ) :
    ∀ m : Nat,
      (rebLoop (db.collectName n) n vf db m).recs =
        db.recs.map (patchedRec n vf m) ++
          insertedRecs (db.collectName n) n vf db.nextId m ∧
      (rebLoop (db.collectName n) n vf db m).nextId =
        db.nextId + (insIdxs (db.collectName n) m).length := by
  intro m
  induction m with
  | zero =>
    refine ⟨?_, ?_⟩
    · have hid : ∀ r ∈ db.recs, patchedRec n vf 0 r = id r := by
        intro r _
        unfold patchedRec
        rcases natIdx r.shard with _ | k
        · rfl
        · dsimp only
          rw [if_neg (fun h => Nat.not_lt_zero k h.2)]
          rfl
      rw [List.map_congr_left hid, List.map_id]
      rw [show insertedRecs (db.collectName n) n vf db.nextId 0 = [] from rfl,
        List.append_nil]
      rfl
    · rw [show insIdxs (db.collectName n) 0 = [] from rfl]
      rfl
  | succ m ih =>
    obtain ⟨ihr, ihn⟩ := ih
    rw [rebLoop_succ]
    split
    · next c hfind =>
        have hcC := List.mem_of_find?_eq_some hfind
        have hcs : c.shard = (m : ℚ) := by
          have := List.find?_some hfind
          simpa using this
        obtain ⟨hcdb, hcn⟩ := mem_collectName hcC
        have hcid : c.id < db.nextId := hw.2 c hcdb
        have hins : insIdxs (db.collectName n) (m + 1) = insIdxs (db.collectName n) m := by
          rw [insIdxs_succ, hfind]
          simp
        refine ⟨?_, ?_⟩
        · show ((rebLoop (db.collectName n) n vf db m).patch c.id (vf m)).recs = _
          unfold DB.patch
          dsimp only
          rw [ihr, List.map_append]
          have hmapside : (db.recs.map (patchedRec n vf m)).map (patchFun c.id (vf m)) =
              db.recs.map (patchedRec n vf (m + 1)) := by
            rw [List.map_map]
            apply List.map_congr_left
            intro r hr
            show patchFun c.id (vf m) (patchedRec n vf m r) = patchedRec n vf (m + 1) r
            by_cases hid : r.id = c.id
            · have hrc : r = c := eq_of_mem_of_id_eq hw hr hcdb hid
              subst hrc
              have h1 : patchedRec n vf m r = r := by
                unfold patchedRec
                rw [hcs, natIdx_natCast]
                dsimp only
                rw [if_neg (fun h => Nat.lt_irrefl m h.2)]
              have h2 : patchedRec n vf (m + 1) r = { r with value := vf m } := by
                unfold patchedRec
                rw [hcs, natIdx_natCast]
                dsimp only
                rw [if_pos ⟨hcn, Nat.lt_succ_self m⟩]
              rw [h1, h2]
              unfold patchFun
              rw [if_pos rfl]
            · have h3 : patchFun c.id (vf m) (patchedRec n vf m r) = patchedRec n vf m r := by
                unfold patchFun
                rw [if_neg (by rw [patchedRec_id]; exact hid)]
              rw [h3]
              unfold patchedRec
              rcases hni : natIdx r.shard with _ | k
              · rfl
              · dsimp only
                by_cases hcond : r.name = n ∧ k < m
                · rw [if_pos hcond, if_pos ⟨hcond.1, Nat.lt_succ_of_lt hcond.2⟩]
                · rw [if_neg hcond, if_neg ?_]
                  intro hcond'
                  have hkm : k = m := by
                    rcases Nat.lt_succ_iff_lt_or_eq.mp hcond'.2 with h | h
                    · exact absurd ⟨hcond'.1, h⟩ hcond
                    · exact h
                  have hrs : r.shard = (m : ℚ) := by
                    rw [natIdx_eq_some hni, hkm]
                  have hrc : r = c := pair_inj hu hr hcdb
                    (hcond'.1.trans hcn.symm) (hrs.trans hcs.symm)
                  exact hid (by rw [hrc])
          have hinsside : (insertedRecs (db.collectName n) n vf db.nextId m).map
              (patchFun c.id (vf m)) =
              insertedRecs (db.collectName n) n vf db.nextId (m + 1) := by
            rw [show insertedRecs (db.collectName n) n vf db.nextId (m + 1) =
                insertedRecs (db.collectName n) n vf db.nextId m by
              unfold insertedRecs; rw [hins]]
            apply map_patchFun_eq_self
            intro r hr hid
            have := (mem_insertedRecs hr).1
            omega
          rw [hmapside, hinsside]
        · show (rebLoop (db.collectName n) n vf db m).nextId = _
          rw [ihn, hins]
    · next hfind =>
        have hins : insIdxs (db.collectName n) (m + 1) =
            insIdxs (db.collectName n) m ++ [m] := by
          rw [insIdxs_succ, hfind]
          simp
        have hmap : db.recs.map (patchedRec n vf (m + 1)) =
            db.recs.map (patchedRec n vf m) := by
          apply List.map_congr_left
          intro r hr
          unfold patchedRec
          rcases hni : natIdx r.shard with _ | k
          · rfl
          · dsimp only
            by_cases hcond : r.name = n ∧ k < m
            · rw [if_pos ⟨hcond.1, Nat.lt_succ_of_lt hcond.2⟩, if_pos hcond]
            · rw [if_neg hcond, if_neg ?_]
              intro hcond'
              have hkm : k = m := by
                rcases Nat.lt_succ_iff_lt_or_eq.mp hcond'.2 with h | h
                · exact absurd ⟨hcond'.1, h⟩ hcond
                · exact h
              have hrs : r.shard = (m : ℚ) := by
                rw [natIdx_eq_some hni, hkm]
              have hrC : r ∈ db.collectName n := by
                unfold DB.collectName
                rw [List.mem_filter]
                exact ⟨hr, by simp [hcond'.1]⟩
              exact (List.find?_eq_none.mp hfind r hrC) (by simp [hrs])
        have hinsrec : insertedRecs (db.collectName n) n vf db.nextId (m + 1) =
            insertedRecs (db.collectName n) n vf db.nextId m ++
              [⟨db.nextId + (insIdxs (db.collectName n) m).length, n, (m : ℚ), vf m⟩] := by
          unfold insertedRecs
          rw [hins, List.enum_append, List.map_append]
          simp
        refine ⟨?_, ?_⟩
        · show ((rebLoop (db.collectName n) n vf db m).insertRec n (m : ℚ) (vf m)).recs = _
          unfold DB.insertRec
          dsimp only
          rw [ihr, ihn, hmap, hinsrec, List.append_assoc]
        · show ((rebLoop (db.collectName n) n vf db m).insertRec n (m : ℚ) (vf m)).nextId = _
          unfold DB.insertRec
          dsimp only
          rw [ihn, hins]
          simp [Nat.add_assoc]

theorem recs_deleteAll_filter (toDel : List Rec) :
    ∀ db : DB, (deleteAll db toDel).recs =
      db.recs.filter (fun r => decide (∀ c ∈ toDel, r.id ≠ c.id)) ∧
      (deleteAll db toDel).nextId = db.nextId := by
  induction toDel with
  | nil =>
    intro db
    refine ⟨?_, rfl⟩
    exact (List.filter_eq_self.mpr (fun a _ => by simp)).symm
  | cons c tl ih =>
    intro db
    rw [deleteAll_cons]
    obtain ⟨h1, h2⟩ := ih (db.delete c.id)
    refine ⟨?_, h2⟩
    rw [h1]
    show (db.delete c.id).recs.filter _ = _
    unfold DB.delete
    dsimp only
    rw [List.filter_filter]
    apply List.filter_congr
    intro a _
    by_cases hc : a.id = c.id
    · simp [List.forall_mem_cons, hc]
    · simp [List.forall_mem_cons, hc]

end ShardedCounter

namespace ShardedCounter

theorem collectName_eq (X : DB) (n : String) :
    X.collectName n = X.recs.filter (fun r => decide (r.name = n)) := rfl

theorem keep_iff {db : DB} {n : String} {S' : Nat} (hw : WfIds db)
    {c : Rec} (hc : c ∈ db.collectName n) {k : Nat} (hk : c.shard = (k : ℚ)) :
    (decide (∀ d ∈ (db.collectName n).filter
        (fun e : Rec => decide ((S' : ℚ) ≤ e.shard)), c.id ≠ d.id))
      = decide (c.shard < (S' : ℚ)) := by
  obtain ⟨hcdb, hcn⟩ := mem_collectName hc
  by_cases hlt : k < S'
  · have h1 : c.shard < (S' : ℚ) := by rw [hk]; exact_mod_cast hlt
    rw [decide_eq_true h1, decide_eq_true]
    intro d hd hid
    have hd1 := List.mem_filter.mp hd
    have hdge : (S' : ℚ) ≤ d.shard := by simpa using hd1.2
    have hddb := (mem_collectName hd1.1).1
    have hcd : c = d := eq_of_mem_of_id_eq hw hcdb hddb hid
    rw [← hcd, hk] at hdge
    have : (S' : Nat) ≤ k := by exact_mod_cast hdge
    omega
  · have h1 : ¬ c.shard < (S' : ℚ) := by
      rw [hk]
      intro hcon
      exact hlt (by exact_mod_cast hcon)
    have h2 : ¬ (∀ d ∈ (db.collectName n).filter
        (fun e : Rec => decide ((S' : ℚ) ≤ e.shard)), c.id ≠ d.id) := by
      intro hall
      apply hall c ?_ rfl
      rw [List.mem_filter]
      refine ⟨hc, ?_⟩
      rw [hk]
      simp only [decide_eq_true_eq]
      exact_mod_cast Nat.le_of_not_lt hlt
    rw [decide_eq_false h1, decide_eq_false h2]

theorem patchedRec_of_nat {n : String} {vf : Nat → ℚ} {S' : Nat} {c : Rec}
    (hcn : c.name = n) {k : Nat} (hk : c.shard = (k : ℚ)) :
    patchedRec n vf S' c =
      (if k < S' then { c with value := vf k } else c) := by
  unfold patchedRec
  rw [hk, natIdx_natCast]
  dsimp only
  by_cases hlt : k < S'
  · rw [if_pos ⟨hcn, hlt⟩, if_pos hlt]
  · rw [if_neg (fun h => hlt h.2), if_neg hlt]

theorem rebArm_collect {db : DB} {n : String} {S' : Nat}
    (hint : IntactFor db n) (vf : Nat → ℚ) :
    (deleteAll (rebLoop (db.collectName n) n vf db S')
        ((db.collectName n).filter
          (fun e : Rec => decide ((S' : ℚ) ≤ e.shard)))).collectName n =
      ((db.collectName n).filter (fun e : Rec => decide (e.shard < (S' : ℚ)))).map
        (fun c => { c with value := vf ((⌊c.shard⌋).toNat) }) ++
      insertedRecs (db.collectName n) n vf db.nextId S' := by
  obtain ⟨hu, hw, hnat⟩ := hint
  obtain ⟨hrecs, hnext⟩ := @rebLoop_recs_spec db n hw hu vf S'
  obtain ⟨hdel, _⟩ := recs_deleteAll_filter
    ((db.collectName n).filter (fun e : Rec => decide ((S' : ℚ) ≤ e.shard)))
    (rebLoop (db.collectName n) n vf db S')
  nth_rewrite 1 [collectName_eq]
  rw [hdel, hrecs, List.filter_append, List.filter_append,
    List.filter_filter, List.filter_filter]
  congr 1
  · rw [List.filter_map]
    rw [@List.filter_congr _ _ (fun r : Rec =>
        decide (r.shard < (S' : ℚ)) && decide (r.name = n)) _ ?_]
    · rw [collectName_eq, List.filter_filter]
      apply List.map_congr_left
      intro r hr
      have hr1 := List.mem_filter.mp hr
      have hand := Bool.and_eq_true_iff.mp hr1.2
      have hname : r.name = n := by simpa using hand.2
      have hshard : r.shard < (S' : ℚ) := by simpa using hand.1
      obtain ⟨k, hk⟩ := hnat r hr1.1 hname
      have hkS : k < S' := by
        rw [hk] at hshard
        exact_mod_cast hshard
      rw [patchedRec_of_nat hname hk, if_pos hkS]
      have hfk : (⌊r.shard⌋).toNat = k := by
        rw [hk, Int.floor_natCast, Int.toNat_natCast]
      rw [hfk]
    · intro r hr
      have hpid : (patchedRec n vf S' r).id = r.id := patchedRec_id n vf S' r
      have hpname : (patchedRec n vf S' r).name = r.name := patchedRec_name n vf S' r
      by_cases hname : r.name = n
      · obtain ⟨k, hk⟩ := hnat r hr hname
        have hrC : r ∈ db.collectName n := by
          rw [collectName_eq, List.mem_filter]
          exact ⟨hr, by simp [hname]⟩
        have hkeep := @keep_iff db n S' hw r hrC k hk
        simp only [Function.comp_apply]
        rw [hpname, hpid, hkeep, decide_eq_true hname]
        simp
      · simp only [Function.comp_apply]
        rw [hpname, decide_eq_false hname]
        simp
  · apply List.filter_eq_self.mpr
    intro r hr
    obtain ⟨hid, hname, _⟩ := mem_insertedRecs hr
    have hkeep : ∀ d ∈ (db.collectName n).filter
        (fun e : Rec => decide ((S' : ℚ) ≤ e.shard)), r.id ≠ d.id := by
      intro d hd
      have hddb := (mem_collectName (List.mem_of_mem_filter hd)).1
      have := hw.2 d hddb
      omega
    simp [hname]
    intro c hc hge
    exact hkeep c (List.mem_filter.mpr ⟨hc, by simp [hge]⟩)

end ShardedCounter

namespace ShardedCounter

theorem insIdxs_eq_filter_not (C : List Rec) (m : Nat) :
    insIdxs C m = (List.range m).filter
      (fun (i : Nat) => !((C.find? (fun c => decide (c.shard = (i : ℚ)))).isSome)) := by
  unfold insIdxs
  apply List.filter_congr
  intro i _
  cases hfo : C.find? (fun c => decide (c.shard = (i : ℚ))) <;> simp [hfo]

theorem rebArm_shards_perm {db : DB} {n : String} {S' : Nat}
    (hint : IntactFor db n) (vf : Nat → ℚ) :
    ((((deleteAll (rebLoop (db.collectName n) n vf db S')
        ((db.collectName n).filter
          (fun e : Rec => decide ((S' : ℚ) ≤ e.shard)))).collectName n)).map
      (·.shard)).Perm ((List.range S').map (fun (i : Nat) => (i : ℚ))) := by
  obtain ⟨hu, hw, hnat⟩ := hint
  rw [rebArm_collect ⟨hu, hw, hnat⟩ vf, List.map_append]
  have hA : (((db.collectName n).filter
        (fun e : Rec => decide (e.shard < (S' : ℚ)))).map
      (fun c => { c with value := vf ((⌊c.shard⌋).toNat) })).map (·.shard) =
      ((db.collectName n).filter
        (fun e : Rec => decide (e.shard < (S' : ℚ)))).map (·.shard) := by
    rw [List.map_map]
    exact List.map_congr_left (fun c _ => rfl)
  have hB : (insertedRecs (db.collectName n) n vf db.nextId S').map (·.shard) =
      (insIdxs (db.collectName n) S').map (fun (i : Nat) => (i : ℚ)) := by
    unfold insertedRecs
    rw [List.map_map]
    rw [show ((fun r : Rec => r.shard) ∘ (fun p : Nat × Nat =>
        (⟨db.nextId + p.1, n, (p.2 : ℚ), vf p.2⟩ : Rec))) =
        ((fun (i : Nat) => (i : ℚ)) ∘ Prod.snd) from rfl]
    rw [← List.map_map, List.enum_map_snd]
  rw [hA, hB]
  have hfirst : (((db.collectName n).filter
        (fun e : Rec => decide (e.shard < (S' : ℚ)))).map (·.shard)).Perm
      (((List.range S').filter (fun (i : Nat) =>
        ((db.collectName n).find? (fun c => decide (c.shard = (i : ℚ)))).isSome)).map
        (fun (i : Nat) => (i : ℚ))) := by
    have d1 : (((db.collectName n).filter
        (fun e : Rec => decide (e.shard < (S' : ℚ)))).map (·.shard)).Nodup := by
      have hsub : List.Sublist
          (((db.collectName n).filter
            (fun e : Rec => decide (e.shard < (S' : ℚ)))).map (fun r : Rec => r.shard))
          ((db.collectName n).map (fun r : Rec => r.shard)) :=
        (List.filter_sublist _).map _
      exact List.Nodup.sublist hsub (nodupShards_of_uniqueInv hu n)
    have d2 : (((List.range S').filter (fun (i : Nat) =>
        ((db.collectName n).find? (fun c => decide (c.shard = (i : ℚ)))).isSome)).map
        (fun (i : Nat) => (i : ℚ))).Nodup := by
      apply List.Nodup.map
      · intro a b hab
        have hab' : ((a : ℚ)) = (b : ℚ) := hab
        exact_mod_cast hab'
      · exact (List.nodup_range S').filter _
    rw [List.perm_ext_iff_of_nodup d1 d2]
    intro x
    constructor
    · intro hx
      obtain ⟨c, hc, rfl⟩ := List.mem_map.mp hx
      have hc1 := List.mem_filter.mp hc
      obtain ⟨hcdb, hcn⟩ := mem_collectName hc1.1
      obtain ⟨k, hk⟩ := hnat c hcdb hcn
      have hklt : k < S' := by
        have : c.shard < (S' : ℚ) := by simpa using hc1.2
        rw [hk] at this
        exact_mod_cast this
      rw [List.mem_map]
      refine ⟨k, ?_, hk.symm⟩
      rw [List.mem_filter]
      refine ⟨List.mem_range.mpr hklt, ?_⟩
      rw [List.find?_isSome]
      exact ⟨c, hc1.1, by simp [hk]⟩
    · intro hx
      obtain ⟨i, hi, rfl⟩ := List.mem_map.mp hx
      have hi1 := List.mem_filter.mp hi
      have hiS : i < S' := List.mem_range.mp hi1.1
      obtain ⟨c, hcC, hcp⟩ := List.find?_isSome.mp hi1.2
      have hcs : c.shard = (i : ℚ) := by simpa using hcp
      rw [List.mem_map]
      refine ⟨c, ?_, hcs⟩
      rw [List.mem_filter]
      refine ⟨hcC, ?_⟩
      rw [hcs]
      simp only [decide_eq_true_eq]
      exact_mod_cast hiS
  rw [insIdxs_eq_filter_not]
  refine (hfirst.append (List.Perm.refl _)).trans ?_
  rw [← List.map_append]
  exact (List.filter_append_perm _ (List.range S')).map _

theorem rebalance_eq (db : DB) (n : String) (S' : Nat) :
    rebalance db n (some (S' : ℚ)) =
      deleteAll (rebLoop (db.collectName n) n
          (fun _ => count db n / (S' : ℚ)) db S')
        ((db.collectName n).filter (fun e : Rec => decide ((S' : ℚ) ≤ e.shard))) := by
  simp only [rebalance, Option.getD_some]
  rw [iterCount_natCast]
  rfl

theorem rebalance0_eq (db : DB) (n : String) (S' : Nat) :
    rebalance0 db n (some (S' : ℚ)) =
      deleteAll (rebLoop (db.collectName n) n
          (fun i => ((⌊count db n / (S' : ℚ)⌋ : ℤ) : ℚ) +
            (extraCounts (count db n -
              ((⌊count db n / (S' : ℚ)⌋ : ℤ) : ℚ) * (S' : ℚ))).getD i 0) db S')
        ((db.collectName n).filter (fun e : Rec => decide ((S' : ℚ) ≤ e.shard))) := by
  simp only [rebalance0, Option.getD_some]
  rw [iterCount_natCast]
  rfl

/-- C2 (amended): for a state satisfying the steady-state data-model
invariant for `name` (unique `(name, shard)` pairs, well-formed ids, natural
shard indices) and any target `S' >= 1`, rebalancing preserves the exact
count, leaves exactly the shard indices `0, ..., S'-1` (each exactly once),
and every resulting value is within 1 of `count/S'` (indeed equal to it). -/
theorem c2_rebalance_postcondition (db : DB) (n : String) (S' : Nat)
    (hS : 1 ≤ S') (hint : IntactFor db n) :
    count (rebalance db n (some (S' : ℚ))) n = count db n ∧
    (((rebalance db n (some (S' : ℚ))).collectName n).map (·.shard)).Perm
      ((List.range S').map (fun (i : Nat) => (i : ℚ))) ∧
    ∀ r ∈ (rebalance db n (some (S' : ℚ))).collectName n,
      |r.value - count db n / (S' : ℚ)| ≤ 1 := by
  have hSne : ((S' : ℚ)) ≠ 0 := by positivity
  have heq := rebalance_eq db n S'
  have hcoll := @rebArm_collect db n S' hint (fun _ => count db n / (S' : ℚ))
  have hvals : ∀ r ∈ (rebalance db n (some (S' : ℚ))).collectName n,
      r.value = count db n / (S' : ℚ) := by
    intro r hr
    rw [heq, hcoll] at hr
    rcases List.mem_append.mp hr with h | h
    · obtain ⟨c, _, rfl⟩ := List.mem_map.mp h
      rfl
    · obtain ⟨_, _, i, _, _, hval⟩ := mem_insertedRecs h
      exact hval
  have hperm : (((rebalance db n (some (S' : ℚ))).collectName n).map (·.shard)).Perm
      ((List.range S').map (fun (i : Nat) => (i : ℚ))) := by
    rw [heq]
    exact rebArm_shards_perm hint _
  have hlen : ((rebalance db n (some (S' : ℚ))).collectName n).length = S' := by
    have := hperm.length_eq
    simpa using this
  refine ⟨?_, hperm, ?_⟩
  · rw [count_eq]
    have hrep : ((rebalance db n (some (S' : ℚ))).collectName n).map (·.value) =
        List.replicate S' (count db n / (S' : ℚ)) := by
      rw [List.eq_replicate_iff]
      refine ⟨by rw [List.length_map, hlen], ?_⟩
      intro b hb
      obtain ⟨r, hr, rfl⟩ := List.mem_map.mp hb
      exact hvals r hr
    rw [hrep, List.sum_replicate, nsmul_eq_mul, mul_comm, div_mul_cancel₀ _ hSne]
  · intro r hr
    rw [hvals r hr, sub_self, abs_zero]
    norm_num

/-- C3 (amended): the base/remainder distribution the claim describes is the
algorithm of the variant module's rebalance (`rebalance0`), not of the main
component's `rebalance` (which assigns every shard the even share): with
`base = floor(T/S')`, the remainder `T - base*S'` lies in `[0, S')`, the
extras list is `floor(remainder)` ones followed by the fractional leftover,
successive shards `0, 1, ...` receive `base + extra`, and afterwards exactly
the shard indices `0, ..., S'-1` exist. -/
theorem c3_remainder_distribution (db : DB) (n : String) (S' : Nat)
    (hS : 1 ≤ S') (hint : IntactFor db n) :
    0 ≤ count db n - ((⌊count db n / (S' : ℚ)⌋ : ℤ) : ℚ) * (S' : ℚ) ∧
    count db n - ((⌊count db n / (S' : ℚ)⌋ : ℤ) : ℚ) * (S' : ℚ) < (S' : ℚ) ∧
    extraCounts (count db n - ((⌊count db n / (S' : ℚ)⌋ : ℤ) : ℚ) * (S' : ℚ)) =
      List.replicate
        ((⌊count db n - ((⌊count db n / (S' : ℚ)⌋ : ℤ) : ℚ) * (S' : ℚ)⌋).toNat) 1 ++
      (if (count db n - ((⌊count db n / (S' : ℚ)⌋ : ℤ) : ℚ) * (S' : ℚ)) -
          ((⌊count db n - ((⌊count db n / (S' : ℚ)⌋ : ℤ) : ℚ) * (S' : ℚ)⌋ : ℤ) : ℚ) = 0
        then []
        else [(count db n - ((⌊count db n / (S' : ℚ)⌋ : ℤ) : ℚ) * (S' : ℚ)) -
          ((⌊count db n - ((⌊count db n / (S' : ℚ)⌋ : ℤ) : ℚ) * (S' : ℚ)⌋ : ℤ) : ℚ)]) ∧
    (∀ t ∈ (rebalance0 db n (some (S' : ℚ))).collectName n,
      t.value = ((⌊count db n / (S' : ℚ)⌋ : ℤ) : ℚ) +
        (extraCounts (count db n -
          ((⌊count db n / (S' : ℚ)⌋ : ℤ) : ℚ) * (S' : ℚ))).getD ((⌊t.shard⌋).toNat) 0) ∧
    (((rebalance0 db n (some (S' : ℚ))).collectName n).map (·.shard)).Perm
      ((List.range S').map (fun (i : Nat) => (i : ℚ))) := by
  obtain ⟨hrem0, hremS⟩ := remainder_bounds (count db n) S' hS
  have heq := rebalance0_eq db n S'
  have hcoll := @rebArm_collect db n S' hint
    (fun i => ((⌊count db n / (S' : ℚ)⌋ : ℤ) : ℚ) +
      (extraCounts (count db n -
        ((⌊count db n / (S' : ℚ)⌋ : ℤ) : ℚ) * (S' : ℚ))).getD i 0)
  refine ⟨hrem0, hremS, extraCounts_closed _ hrem0, ?_, ?_⟩
  · intro t ht
    rw [heq, hcoll] at ht
    rcases List.mem_append.mp ht with h | h
    · obtain ⟨c, _, rfl⟩ := List.mem_map.mp h
      rfl
    · obtain ⟨_, _, i, _, hsh, hval⟩ := mem_insertedRecs h
      rw [hval, hsh, Int.floor_natCast, Int.toNat_natCast]
  · rw [heq]
    exact rebArm_shards_perm hint _

end ShardedCounter

namespace ShardedCounter

theorem c1_witness :
    WfIds ⟨[], 0⟩ ∧ (∀ r ∈ ([] : List Rec), r.name ≠ "x") ∧
    (count (⟨[], 0⟩ : DB) "x" = 0 ∧
      ∃ db', runAdds ⟨[], 0⟩ "x"
          [⟨5, none, some 16, 0⟩, ⟨3, some 2, none, 1/2⟩] = some db' ∧
        count db' "x" =
          (([⟨5, none, some 16, 0⟩, ⟨3, some 2, none, 1/2⟩] : List AddCall).map
            (·.cnt)).sum) := by
  refine ⟨⟨by simp, by simp⟩, by simp, ?_⟩
  exact c1_additivity ⟨[], 0⟩ "x" _ ⟨by simp, by simp⟩ (by simp)

theorem c2_witness :
    1 ≤ 2 ∧ IntactFor ⟨[⟨0, "x", 0, 5⟩], 1⟩ "x" ∧
    (count (rebalance ⟨[⟨0, "x", 0, 5⟩], 1⟩ "x" (some ((2 : Nat) : ℚ))) "x" =
        count ⟨[⟨0, "x", 0, 5⟩], 1⟩ "x" ∧
      (((rebalance ⟨[⟨0, "x", 0, 5⟩], 1⟩ "x" (some ((2 : Nat) : ℚ))).collectName "x").map
          (·.shard)).Perm ((List.range 2).map (fun (i : Nat) => (i : ℚ)))) := by
  have hint : IntactFor ⟨[⟨0, "x", 0, 5⟩], 1⟩ "x" := by
    refine ⟨by simp [UniqueInv, pairs], ⟨by simp, ?_⟩, ?_⟩
    · intro r hr
      simp only [List.mem_singleton] at hr
      subst hr
      norm_num
    · intro r hr _
      simp only [List.mem_singleton] at hr
      subst hr
      exact ⟨0, by norm_num⟩
  have h := c2_rebalance_postcondition ⟨[⟨0, "x", 0, 5⟩], 1⟩ "x" 2 (by norm_num) hint
  exact ⟨by norm_num, hint, h.1, h.2.1⟩

theorem c3_witness :
    1 ≤ 2 ∧ IntactFor ⟨[⟨0, "x", 0, 5⟩], 1⟩ "x" ∧
    0 ≤ count (⟨[⟨0, "x", 0, 5⟩], 1⟩ : DB) "x" -
        ((⌊count (⟨[⟨0, "x", 0, 5⟩], 1⟩ : DB) "x" / ((2 : Nat) : ℚ)⌋ : ℤ) : ℚ) *
          ((2 : Nat) : ℚ) ∧
    (((rebalance0 ⟨[⟨0, "x", 0, 5⟩], 1⟩ "x" (some ((2 : Nat) : ℚ))).collectName "x").map
        (·.shard)).Perm ((List.range 2).map (fun (i : Nat) => (i : ℚ))) := by
  have hint : IntactFor ⟨[⟨0, "x", 0, 5⟩], 1⟩ "x" := by
    refine ⟨by simp [UniqueInv, pairs], ⟨by simp, ?_⟩, ?_⟩
    · intro r hr
      simp only [List.mem_singleton] at hr
      subst hr
      norm_num
    · intro r hr _
      simp only [List.mem_singleton] at hr
      subst hr
      exact ⟨0, by norm_num⟩
  have h := c3_remainder_distribution ⟨[⟨0, "x", 0, 5⟩], 1⟩ "x" 2 (by norm_num) hint
  exact ⟨by norm_num, hint, h.1, h.2.2.2.2⟩

theorem c4_witness :
    1 ≤ 1 ∧ UniqueInv ⟨[⟨0, "x", 0, 5⟩], 1⟩ ∧
    estimateCount ⟨[⟨0, "x", 0, 5⟩], 1⟩ "x" (some ((1 : Nat) : ℚ))
        (some ((1 : Nat) : ℚ)) (fun _ => 0) =
      some (count ⟨[⟨0, "x", 0, 5⟩], 1⟩ "x") := by
  have hu : UniqueInv (⟨[⟨0, "x", 0, 5⟩], 1⟩ : DB) := by simp [UniqueInv, pairs]
  refine ⟨by norm_num, hu, ?_⟩
  apply c4_full_sampling ⟨[⟨0, "x", 0, 5⟩], 1⟩ "x" 1 (fun _ => 0) (by norm_num)
    (fun k => by norm_num) hu
  intro r hr _
  simp only [List.mem_singleton] at hr
  subst hr
  exact ⟨0, by norm_num, by norm_num⟩

theorem c5_witness :
    1 ≤ 1 ∧ UniqueInv ⟨[⟨0, "x", 0, 5⟩], 1⟩ ∧
    (sampleIdxs ((1 : Nat) : ℚ) (min (max 1 ((0 : Nat) : ℚ)) ((1 : Nat) : ℚ))
        (fun _ => 0)).length = min (max 1 0) 1 ∧
    (sampleIdxs ((1 : Nat) : ℚ) (min (max 1 ((0 : Nat) : ℚ)) ((1 : Nat) : ℚ))
        (fun _ => 0)).Nodup ∧
    estimateCount ⟨[⟨0, "x", 0, 5⟩], 1⟩ "x" (some ((0 : Nat) : ℚ))
        (some ((1 : Nat) : ℚ)) (fun _ => 0) =
      some (((sampleIdxs ((1 : Nat) : ℚ) (min (max 1 ((0 : Nat) : ℚ)) ((1 : Nat) : ℚ))
          (fun _ => 0)).map
          (fun (i : Nat) => shardValue ⟨[⟨0, "x", 0, 5⟩], 1⟩ "x" (i : ℚ))).sum *
        ((1 : Nat) : ℚ) / ((min (max 1 0) 1 : Nat) : ℚ)) := by
  have hu : UniqueInv (⟨[⟨0, "x", 0, 5⟩], 1⟩ : DB) := by simp [UniqueInv, pairs]
  have h := c5_sampling_contract ⟨[⟨0, "x", 0, 5⟩], 1⟩ "x" 1 0 (fun _ => 0)
    (by norm_num) (fun k => by norm_num) hu
  exact ⟨by norm_num, hu, h.1, h.2.1, h.2.2.2⟩

theorem c6_witness :
    add ⟨[], 0⟩ "x" 5 (some 3) none 0 = add ⟨[], 0⟩ "x" 5 (some 3) none (1/2) ∧
    (3 : ℚ) = 3 ∧
    shardValue (⟨[⟨0, "x", 3, 5⟩], 1⟩ : DB) "x" 3 = shardValue ⟨[], 0⟩ "x" 3 + 5 := by
  have h := c6_shard_pinning ⟨[], 0⟩ "x" 5 3 none 0 (1/2)
  refine ⟨h.1, h.2 ⟨[⟨0, "x", 3, 5⟩], 1⟩ 3 ?_⟩
  norm_num [add, DB.uniqueNS, DB.insertRec]

theorem c7_witness :
    1 ≤ 1 ∧
    (add ⟨[], 0⟩ "x" 5 none (some 0) 0 = add ⟨[], 0⟩ "x" 5 (some 0) (some 0) 0 ∧
    estimateCount ⟨[], 0⟩ "x" (some 0) (some ((1 : Nat) : ℚ)) (fun _ => 0) =
      estimateCount ⟨[], 0⟩ "x" (some (min (max 1 0) ((1 : Nat) : ℚ)))
        (some ((1 : Nat) : ℚ)) (fun _ => 0) ∧
    rebalance ⟨[], 0⟩ "x" (some 0) =
      deleteAll ⟨[], 0⟩ ((DB.collectName ⟨[], 0⟩ "x").filter
        (fun c => decide ((0 : ℚ) ≤ c.shard)))) := by
  exact ⟨by norm_num, c7_no_validation ⟨[], 0⟩ "x" 5 0 0 1 (fun _ => 0) (by norm_num)⟩

theorem c8_witness :
    UniqueInv ⟨[⟨0, "x", 0, 5⟩], 1⟩ ∧
    UniqueInv (⟨[⟨0, "x", 0, 7⟩], 1⟩ : DB) ∧
    UniqueInv (rebalance ⟨[⟨0, "x", 0, 5⟩], 1⟩ "x" (some 1)) ∧
    UniqueInv (reset ⟨[⟨0, "x", 0, 5⟩], 1⟩ "x") := by
  have hu : UniqueInv (⟨[⟨0, "x", 0, 5⟩], 1⟩ : DB) := by simp [UniqueInv, pairs]
  have h := c8_unique_preserved ⟨[⟨0, "x", 0, 5⟩], 1⟩ "x" 2 (some 0) none (some 1) 0 hu
  refine ⟨hu, ?_, h.2.1, h.2.2⟩
  apply h.1 ⟨[⟨0, "x", 0, 7⟩], 1⟩ 0
  norm_num [add, DB.uniqueNS, DB.patch, patchFun, List.filter]

theorem c9_witness :
    WfIds ⟨[⟨0, "a", 0, 5⟩, ⟨1, "b", 1, 3⟩], 2⟩ ∧ "a" ≠ "b" ∧
    ((⟨[⟨0, "a", 0, 7⟩, ⟨1, "b", 1, 3⟩], 2⟩ : DB).collectName "b" =
        (⟨[⟨0, "a", 0, 5⟩, ⟨1, "b", 1, 3⟩], 2⟩ : DB).collectName "b" ∧
      count (⟨[⟨0, "a", 0, 7⟩, ⟨1, "b", 1, 3⟩], 2⟩ : DB) "b" =
        count (⟨[⟨0, "a", 0, 5⟩, ⟨1, "b", 1, 3⟩], 2⟩ : DB) "b") ∧
    ((rebalance ⟨[⟨0, "a", 0, 5⟩, ⟨1, "b", 1, 3⟩], 2⟩ "a" (some 1)).collectName "b" =
        (⟨[⟨0, "a", 0, 5⟩, ⟨1, "b", 1, 3⟩], 2⟩ : DB).collectName "b") ∧
    ((reset ⟨[⟨0, "a", 0, 5⟩, ⟨1, "b", 1, 3⟩], 2⟩ "a").collectName "b" =
        (⟨[⟨0, "a", 0, 5⟩, ⟨1, "b", 1, 3⟩], 2⟩ : DB).collectName "b") := by
  have hw : WfIds (⟨[⟨0, "a", 0, 5⟩, ⟨1, "b", 1, 3⟩], 2⟩ : DB) := by
    constructor
    · simp
    · intro r hr
      rcases List.mem_cons.mp hr with rfl | hr'
      · norm_num
      · simp only [List.mem_singleton] at hr'
        subst hr'
        norm_num
  have h := c9_frame ⟨[⟨0, "a", 0, 5⟩, ⟨1, "b", 1, 3⟩], 2⟩ "a" "b" hw
    (by decide) 2 (some 0) none (some 1) 0
  refine ⟨hw, by decide, ?_, (h.2.1).1, (h.2.2).1⟩
  apply h.1 ⟨[⟨0, "a", 0, 7⟩, ⟨1, "b", 1, 3⟩], 2⟩ 0
  norm_num [add, DB.uniqueNS, DB.patch, patchFun, List.filter]

theorem c10_witness :
    WfIds ⟨[], 0⟩ ∧
    ((-1 : ℚ) = -1 ∧
      count (⟨[⟨0, "x", -1, 5⟩], 1⟩ : DB) "x" = count ⟨[], 0⟩ "x" + 5) ∧
    (1 : Nat) < 2 := by
  have hw : WfIds (⟨[], 0⟩ : DB) := ⟨by simp, by simp⟩
  have h := c10_no_pin_validation ⟨[], 0⟩ "x" 5 (-1) none 0 hw
  refine ⟨hw, ?_, ?_⟩
  · apply h.1 ⟨[⟨0, "x", -1, 5⟩], 1⟩ (-1)
    norm_num [add, DB.uniqueNS, DB.insertRec]
  · apply h.2 2 1 (fun _ => 0) 1
    norm_num [sampleIdxs, shuffle, shuffleLoop, jsSwap, List.range_succ]
    decide

end ShardedCounter
